import Mathlib

/-!
Shallow embedding of the `suffix_tree` crate (src/lib.rs, src/alphabet.rs)
and proofs about its specification.

Modeling conventions:
* bytes, sequence ids and node ids are `Nat`;
* Rust functions that can panic (failed `unwrap`, out-of-bounds indexing,
  `assert!`, arithmetic underflow of `usize` subtraction, shift overflow)
  return `Option`, with `none` for the panic;
* loops that are not structurally bounded take a fuel argument and return
  `none` when the fuel runs out;
* `HashMap<usize, NodeId>` is modeled as an association list kept in
  insertion order (the Rust iteration order is unspecified; no claim below
  depends on it);
* the `Cell` writes of `_prepare_lcs` are modeled as an update log applied
  after the traversal; `_prepare_lcs` never reads the cell, so the
  resulting tree is identical.
-/

namespace SuffixTreeRs

/-- Subtraction of `usize` values: panics (returns `none`) on underflow,
matching the checked semantics of debug builds. -/
def checkedSub (a b : Nat) : Option Nat :=
  if b ≤ a then some (a - b) else none

/-- Rust slice `xs[s..e]`: panics unless `s ≤ e ≤ xs.length`. -/
def sliceChecked (xs : List Nat) (s e : Nat) : Option (List Nat) :=
  if s ≤ e ∧ e ≤ xs.length then some ((xs.drop s).take (e - s)) else none

/-- Rust slice `xs[s..]`: panics unless `s ≤ xs.length`. -/
def dropChecked (xs : List Nat) (s : Nat) : Option (List Nat) :=
  if s ≤ xs.length then some (xs.drop s) else none

/-- The byte slice `xs[s..e]` as a pure function (used to state claims). -/
def listSlice (xs : List Nat) (s e : Nat) : List Nat :=
  (xs.drop s).take (e - s)

/-- Apply a fallible function to every element, failing when any
application fails (the effect of a Rust loop of fallible operations). -/
def optionMapAll (f : α → Option β) : List α → Option (List β)
  | [] => some []
  | a :: as_ => do
      let b ← f a
      let bs ← optionMapAll f as_
      some (b :: bs)

/-- Fold a fallible step over a list. -/
def optionFoldl (f : β → α → Option β) : β → List α → Option β
  | b, [] => some b
  | b, a :: as_ => do
      let b1 ← f b a
      optionFoldl f b1 as_

/-! ## src/alphabet.rs -/

/-- `Alphabet` from src/alphabet.rs: `ranks` is the 255-element array
`[Option<u8>; 255]`, `size` the `symbols.len() as u8` truncation. -/
structure Alphabet where
  size : Nat
  symbols : List Nat
  ranks : List (Option Nat)
deriving DecidableEq, Repr

/-- Loop body of `Alphabet::new`: for each symbol check
`ranks[symbol]` (index out of bounds for symbol ≥ 255 panics), assert it is
unset (duplicate panics) and record the rank. -/
def Alphabet.newGo : List (Option Nat) → Nat → List Nat → Option (List (Option Nat))
  | ranks, _, [] => some ranks
  | ranks, i, s :: rest =>
    match ranks.get? s with
    | none => none
    | some (some _) => none
    | some none => Alphabet.newGo (ranks.set s (some i)) (i + 1) rest

/-- `Alphabet::new`. -/
def Alphabet.new (symbols : List Nat) : Option Alphabet :=
  (Alphabet.newGo (List.replicate 255 none) 0 symbols).map
    (fun ranks => ⟨symbols.length % 256, symbols, ranks⟩)

/-- `Alphabet::rank_of_symbol`: indexes `ranks` (panic out of bounds) and
unwraps (panic when the byte is not in the alphabet). -/
def Alphabet.rankOfSymbol (a : Alphabet) (symbol : Nat) : Option Nat :=
  (a.ranks.get? symbol).bind id

/-- `Alphabet::symbol_of_rank`. -/
def Alphabet.symbolOfRank (a : Alphabet) (rank : Nat) : Option Nat :=
  a.symbols.get? rank

/-- The bytes `b"abcdefghijklmnopqrstuvwxyzABCDEFGHIJKLMNOPQRSTUVWXYZ"`. -/
def asciiSymbols : List Nat :=
  (List.range 26).map (fun i => 97 + i) ++ (List.range 26).map (fun i => 65 + i)

/-- The `ASCII` lazy static (the default alphabet). Construction succeeds,
see `alphabetASCII_eq`. -/
def alphabetASCII : Alphabet :=
  (Alphabet.new asciiSymbols).getD ⟨0, [], []⟩

/-! ## Data model (src/lib.rs) -/

/-- `enum Symbol { Terminal(usize), Regular(u8) }`. -/
inductive Symbol where
  | terminal (seqId : Nat)
  | regular (b : Nat)
deriving DecidableEq, Repr

/-- `struct Sequence { id, data }`. -/
structure Sequence where
  id : Nat
  data : List Nat
deriving DecidableEq, Repr

/-- `Sequence::new`. -/
def Sequence.new (id : Nat) (data : List Nat) : Sequence := ⟨id, data⟩

/-- `Sequence::len`: payload length plus the terminal position. -/
def Sequence.len (s : Sequence) : Nat := s.data.length + 1

/-- `Sequence::at`: the terminal at index `data.len()`, the byte otherwise
(panic past the terminal position). -/
def Sequence.atIndex (s : Sequence) (index : Nat) : Option Symbol :=
  if index = s.data.length then some (Symbol.terminal s.id)
  else (s.data.get? index).map Symbol.regular

/-- `HashMap::insert` on the association-list model. -/
def assocSet : List (Nat × Nat) → Nat → Nat → List (Nat × Nat)
  | [], k, v => [(k, v)]
  | (k', v') :: rest, k, v =>
    if k' = k then (k, v) :: rest else (k', v') :: assocSet rest k v

/-- `HashMap::get` on the association-list model. -/
def assocGet : List (Nat × Nat) → Nat → Option Nat
  | [], _ => none
  | (k', v') :: rest, k => if k' = k then some v' else assocGet rest k

/-- `struct ChildMap { terminals: HashMap<usize, NodeId>, regular: SmallVec<..> }`. -/
structure ChildMap where
  terminals : List (Nat × Nat)
  regular : List (Option Nat)
deriving DecidableEq, Repr

/-- `ChildMap::new`. -/
def ChildMap.new (alphabetSize : Nat) : ChildMap :=
  ⟨[], List.replicate alphabetSize none⟩

/-- `ChildMap::add_child` (panics when `rank_of_symbol` panics or the rank
is out of bounds of the `regular` vector). -/
def ChildMap.addChild (cm : ChildMap) (alphabet : Alphabet) (symbol : Symbol)
    (child : Nat) : Option ChildMap :=
  match symbol with
  | .terminal seqId => some { cm with terminals := assocSet cm.terminals seqId child }
  | .regular b => do
      let rank ← alphabet.rankOfSymbol b
      if rank < cm.regular.length then
        some { cm with regular := cm.regular.set rank (some child) }
      else none

/-- `ChildMap::get_child`: the outer `Option` is the panic, the inner one
the presence of a child. -/
def ChildMap.getChild (cm : ChildMap) (alphabet : Alphabet) (symbol : Symbol) :
    Option (Option Nat) :=
  match symbol with
  | .terminal seqId => some (assocGet cm.terminals seqId)
  | .regular b => do
      let rank ← alphabet.rankOfSymbol b
      cm.regular.get? rank

/-- `ChildMap::iter`: terminal children first, then regular children in
rank order. -/
def ChildMap.iter (cm : ChildMap) : List Nat :=
  cm.terminals.map (fun p => p.2) ++ cm.regular.filterMap id

/-- `enum Node { Root, Internal, Leaf }` with the fields of the three
node structs (`end_` is the `end` field). -/
inductive Node where
  | root (children : ChildMap)
  | internal (seqId start end_ : Nat) (children : ChildMap)
      (suffixLink : Option Nat) (sequenceIdSet : Option Nat)
  | leaf (seqId start : Nat)
deriving DecidableEq, Repr

/-- `Node::new_root`. -/
def Node.newRoot (alphabetSize : Nat) : Node := Node.root (ChildMap.new alphabetSize)

/-- `Node::new_internal` (suffix link unset, `sequence_id_set` cell empty). -/
def Node.newInternal (alphabetSize seqId start end_ : Nat) : Node :=
  Node.internal seqId start end_ (ChildMap.new alphabetSize) none none

/-- `Node::new_leaf`. -/
def Node.newLeaf (seqId start : Nat) : Node := Node.leaf seqId start

/-- `Node::children`. -/
def Node.children? : Node → Option ChildMap
  | .root cm => some cm
  | .internal _ _ _ cm _ _ => some cm
  | .leaf _ _ => none

/-- `Node::is_leaf`. -/
def Node.isLeaf : Node → Bool
  | .leaf _ _ => true
  | _ => false

/-- `Node::add_child` (`children_mut().unwrap()` panics on a leaf). -/
def Node.addChildN (n : Node) (alphabet : Alphabet) (symbol : Symbol)
    (child : Nat) : Option Node :=
  match n with
  | .root cm => (cm.addChild alphabet symbol child).map Node.root
  | .internal i s e cm sl ss =>
      (cm.addChild alphabet symbol child).map
        (fun cm1 => Node.internal i s e cm1 sl ss)
  | .leaf _ _ => none

/-- `Node::get_child` (`children().unwrap()` panics on a leaf). -/
def Node.getChildN (n : Node) (alphabet : Alphabet) (symbol : Symbol) :
    Option (Option Nat) :=
  match n.children? with
  | none => none
  | some cm => cm.getChild alphabet symbol

/-- `struct SuffixTree`. -/
structure SuffixTree where
  alphabet : Alphabet
  sequences : List Sequence
  nodes : List Node
deriving DecidableEq, Repr

/-- `SuffixTree::new`: the default alphabet is the `ASCII` lazy static. -/
def SuffixTree.new (maybeAlphabet : Option Alphabet) : SuffixTree :=
  let alphabet := maybeAlphabet.getD alphabetASCII
  ⟨alphabet, [], [Node.newRoot alphabet.size]⟩

/-- `SuffixTree::sequence_by_id` (panics on an unknown id). -/
def SuffixTree.sequenceById (t : SuffixTree) (seqId : Nat) : Option (List Nat) :=
  (t.sequences.get? seqId).map (fun s => s.data)

/-- `SuffixTree::add_sequence`: the capacity `assert!` runs before the
push, so a rejected call leaves the tree untouched; the second component
is the tree state when the function exits (normally or by panic). -/
def SuffixTree.addSequence (t : SuffixTree) (data : List Nat) :
    Option Unit × SuffixTree :=
  let seqId := t.sequences.length
  if seqId < 128 then
    (some (), { t with sequences := t.sequences ++ [Sequence.new seqId data] })
  else (none, t)

/-- `SuffixTree::current_sequence` (panics when no sequence was added). -/
def SuffixTree.currentSequence (t : SuffixTree) : Option Sequence :=
  t.sequences.get? (t.sequences.length - 1)

/-- `SuffixTree::add_node`: appends and returns the fresh id. -/
def SuffixTree.addNode (t : SuffixTree) (node : Node) : Nat × SuffixTree :=
  (t.nodes.length, { t with nodes := t.nodes ++ [node] })

/-- `SuffixTree::add_child`. -/
def SuffixTree.addChild (t : SuffixTree) (parent : Nat) (symbol : Symbol)
    (child : Nat) : Option SuffixTree := do
  let node ← t.nodes.get? parent
  let node1 ← node.addChildN t.alphabet symbol child
  some { t with nodes := t.nodes.set parent node1 }

/-- `SuffixTree::get_child`. -/
def SuffixTree.getChild (t : SuffixTree) (parent : Nat) (symbol : Symbol) :
    Option (Option Nat) := do
  let node ← t.nodes.get? parent
  node.getChildN t.alphabet symbol

/-- `SuffixTree::root_node` (panics when node 0 is not the root). -/
def SuffixTree.rootNode (t : SuffixTree) : Option ChildMap :=
  match t.nodes.get? 0 with
  | some (.root cm) => some cm
  | _ => none

/-- The `sequence_id_set` cell of a node (`none` for other node kinds). -/
def SuffixTree.seqIdSetAt (t : SuffixTree) (n : Nat) : Option Nat :=
  match t.nodes.get? n with
  | some (.internal _ _ _ _ _ ss) => ss
  | _ => none

/-- Whether node `n` exists and is internal. -/
def SuffixTree.isInternalAt (t : SuffixTree) (n : Nat) : Bool :=
  match t.nodes.get? n with
  | some (.internal _ _ _ _ _ _) => true
  | _ => false

/-! ## Queries: `find_node`, `contains`, `find`, `node_occurences` -/

/-- The `label` computed inside `find_node`'s loop for the chosen child:
the byte slice of the child's incoming edge (panic on the root and on bad
slice bounds). The terminal position of a leaf is not part of the slice. -/
def SuffixTree.labelBytes (t : SuffixTree) (child : Nat) : Option (List Nat) :=
  match t.nodes.get? child with
  | some (.internal seqId start end_ _ _ _) => do
      let seq ← t.sequences.get? seqId
      sliceChecked seq.data start end_
  | some (.leaf seqId start) => do
      let seq ← t.sequences.get? seqId
      dropChecked seq.data start
  | _ => none

/-- The loop of `SuffixTree::find_node`; the outer `Option` is
panic/divergence, the inner one the function's return value. -/
def SuffixTree.findNodeLoop (t : SuffixTree) (pattern : List Nat) :
    Nat → Nat → Nat → Option (Option (Nat × Nat))
  | 0, _, _ => none
  | fuel + 1, currentNode, remaining =>
    match pattern.get? (pattern.length - remaining) with
    | none => none
    | some byte => do
        let c ← t.getChild currentNode (Symbol.regular byte)
        match c with
        | none => some none
        | some child => do
            let label ← t.labelBytes child
            if remaining < label.length then
              if pattern.drop (pattern.length - remaining) ≠ label.take remaining
              then some none
              else some (some (child, remaining))
            else if (pattern.drop (pattern.length - remaining)).take label.length ≠ label
            then some none
            else if remaining = label.length then some (some (child, remaining))
            else do
              let node ← t.nodes.get? child
              if node.isLeaf then some none
              else t.findNodeLoop pattern fuel child (remaining - label.length)

/-- `SuffixTree::find_node`. -/
def SuffixTree.findNode (t : SuffixTree) (pattern : List Nat) (fuel : Nat) :
    Option (Option (Nat × Nat)) :=
  t.findNodeLoop pattern fuel 0 pattern.length

/-- `SuffixTree::contains`. -/
def SuffixTree.contains (t : SuffixTree) (pattern : List Nat) (fuel : Nat) :
    Option Bool :=
  (t.findNode pattern fuel).map Option.isSome

/-- `SuffixTree::node_occurences`. -/
def SuffixTree.nodeOccurences :
    Nat → SuffixTree → Nat → Nat → Option (List (Nat × Nat))
  | 0, _, _, _ => none
  | fuel + 1, t, node, depth =>
    match t.nodes.get? node with
    | none => none
    | some (.root _) => some []
    | some (.internal _ start end_ children _ _) => do
        let edgeLength ← checkedSub end_ start
        let ls ← optionMapAll
          (fun child => SuffixTree.nodeOccurences fuel t child (depth + edgeLength))
          children.iter
        some ls.flatten
    | some (.leaf seqId start) => do
        let pos ← checkedSub start depth
        some [(seqId, pos)]

/-- `SuffixTree::find`. -/
def SuffixTree.find (t : SuffixTree) (pattern : List Nat) (fuel : Nat) :
    Option (List (Nat × Nat × Nat)) := do
  let r ← t.findNode pattern fuel
  match r with
  | none => some []
  | some (node, remaining) => do
      let patternLen := pattern.length
      let occs ← SuffixTree.nodeOccurences fuel t node 0
      optionMapAll (fun (p : Nat × Nat) => do
          let end_ := p.2 + remaining
          let start ← checkedSub end_ patternLen
          some (p.1, start, end_)) occs

/-! ## LCS preparation and extraction -/

/-- `_prepare_lcs`: returns the subtree's id set together with the log of
`sequence_id_set.set` calls in execution order (panic on the root, on a
missing node, and on `1 << seq_id` with `seq_id ≥ 128`). -/
def SuffixTree.prepareLcsAux :
    Nat → SuffixTree → Nat → Option (Nat × List (Nat × Nat))
  | 0, _, _ => none
  | fuel + 1, t, node =>
    match t.nodes.get? node with
    | none => none
    | some (.root _) => none
    | some (.internal _ _ _ children _ _) => do
        let results ← optionMapAll (SuffixTree.prepareLcsAux fuel t) children.iter
        let idSet := results.foldl (fun acc r => acc ||| r.1) 0
        some (idSet, (results.map (fun r => r.2)).flatten ++ [(node, idSet)])
    | some (.leaf seqId _) =>
        if seqId < 128 then some (2 ^ seqId, []) else none

/-- Write a value into the `sequence_id_set` cell of an internal node. -/
def SuffixTree.setSeqIdSet (t : SuffixTree) (node v : Nat) : Option SuffixTree :=
  match t.nodes.get? node with
  | some (.internal i s e cm sl _) =>
      some { t with nodes := t.nodes.set node (Node.internal i s e cm sl (some v)) }
  | _ => none

/-- Apply the logged cell writes in order. -/
def SuffixTree.applyUpdates : SuffixTree → List (Nat × Nat) → Option SuffixTree
  | t, [] => some t
  | t, (m, v) :: rest => do
      let t1 ← t.setSeqIdSet m v
      SuffixTree.applyUpdates t1 rest

/-- `SuffixTree::prepare_lcs`: run `_prepare_lcs` on every root child and
perform the logged cell writes. -/
def SuffixTree.prepareLcs (t : SuffixTree) (fuel : Nat) : Option SuffixTree := do
  let root ← t.rootNode
  let results ← optionMapAll (SuffixTree.prepareLcsAux fuel t) root.iter
  t.applyUpdates (results.map (fun r => r.2)).flatten

/-- `u128::max_value() >> (128 - len)`: `usize` underflow for `len > 128`
and shift overflow for `len = 0` both panic. -/
def maskOf (len : Nat) : Option Nat := do
  let shift ← checkedSub 128 len
  if shift < 128 then some ((2 ^ 128 - 1) >>> shift) else none

/-- Rust `Iterator::max_by_key`: on ties the last maximal element wins. -/
def maxByKeyLast (key : α → Nat) (l : List α) : Option α :=
  l.foldl
    (fun acc x =>
      match acc with
      | none => some x
      | some a => if key a ≤ key x then some x else some a)
    none

/-- `_longest_common_subsequence`: deepest complete descendant (inner
`Option` is the function's return value). -/
def SuffixTree.lcsAux : Nat → SuffixTree → Nat → Nat → Option (Option (Nat × Nat))
  | 0, _, _, _ => none
  | fuel + 1, t, node, depth =>
    match t.nodes.get? node with
    | some (.internal _ start end_ children _ sequenceIdSet) => do
        let allBitsSet ← maskOf t.sequences.length
        let idSet ← sequenceIdSet
        if idSet ≠ allBitsSet then some none
        else do
          let edgeLength ← checkedSub end_ start
          let rs ← optionMapAll
            (fun child => SuffixTree.lcsAux fuel t child (depth + edgeLength))
            children.iter
          match maxByKeyLast (fun p => p.2) (rs.filterMap id) with
          | some best => some (some best)
          | none => some (some (node, depth + edgeLength))
    | some (.leaf _ _) => some none
    | _ => none

/-- `SuffixTree::longest_common_subsequence`. -/
def SuffixTree.longestCommonSubsequence (t : SuffixTree) (fuel : Nat) :
    Option (List (Nat × Nat × Nat)) := do
  let root ← t.rootNode
  let rs ← optionMapAll (fun child => SuffixTree.lcsAux fuel t child 0) root.iter
  match maxByKeyLast (fun p => p.2) (rs.filterMap id) with
  | none => some []
  | some (node, depth) => do
      let edgeLength ←
        match t.nodes.get? node with
        | some (.internal _ start end_ _ _ _) => checkedSub end_ start
        | _ => none
      let occs ← SuffixTree.nodeOccurences fuel t node 0
      optionMapAll (fun (p : Nat × Nat) => do
          let end_ := p.2 + edgeLength
          let start ← checkedSub end_ depth
          some (p.1, start, end_)) occs

/-! ## `pretty_print` -/

/-- Strict UTF-8 decoding (`str::from_utf8`): `none` on invalid input. -/
def decodeUtf8 : List Nat → Option (List Char)
  | [] => some []
  | b :: rest =>
    if b < 0x80 then (decodeUtf8 rest).map (fun cs => Char.ofNat b :: cs)
    else if b < 0xC2 then none
    else if b < 0xE0 then
      match rest with
      | c1 :: rest1 =>
        if 0x80 ≤ c1 ∧ c1 < 0xC0 then
          (decodeUtf8 rest1).map
            (fun cs => Char.ofNat ((b - 0xC0) * 0x40 + (c1 - 0x80)) :: cs)
        else none
      | _ => none
    else if b < 0xF0 then
      match rest with
      | c1 :: c2 :: rest2 =>
        let lo1 := if b = 0xE0 then 0xA0 else 0x80
        let hi1 := if b = 0xED then 0xA0 else 0xC0
        if (lo1 ≤ c1 ∧ c1 < hi1) ∧ (0x80 ≤ c2 ∧ c2 < 0xC0) then
          (decodeUtf8 rest2).map
            (fun cs =>
              Char.ofNat ((b - 0xE0) * 0x1000 + (c1 - 0x80) * 0x40 + (c2 - 0x80)) :: cs)
        else none
      | _ => none
    else if b < 0xF5 then
      match rest with
      | c1 :: c2 :: c3 :: rest3 =>
        let lo1 := if b = 0xF0 then 0x90 else 0x80
        let hi1 := if b = 0xF4 then 0x90 else 0xC0
        if (lo1 ≤ c1 ∧ c1 < hi1) ∧ (0x80 ≤ c2 ∧ c2 < 0xC0) ∧ (0x80 ≤ c3 ∧ c3 < 0xC0) then
          (decodeUtf8 rest3).map
            (fun cs =>
              Char.ofNat ((b - 0xF0) * 0x40000 + (c1 - 0x80) * 0x1000 +
                (c2 - 0x80) * 0x40 + (c3 - 0x80)) :: cs)
        else none
      | _ => none
    else none

/-- `Sequence::substring`: UTF-8 text of the byte range, with the
`<invalid_string>` placeholder, and `$<id>` appended for leaf labels. -/
def Sequence.substring (s : Sequence) (start : Nat) (maybeEnd : Option Nat) :
    Option String := do
  let end_ := maybeEnd.getD s.data.length
  let bytes ← sliceChecked s.data start end_
  let substr :=
    match decodeUtf8 bytes with
    | some cs => String.mk cs
    | none => "<invalid_string>"
  if maybeEnd.isNone then some (substr ++ "$" ++ toString s.id) else some substr

/-- `text.len()` in Rust: the UTF-8 byte length of a string. -/
def utf8Length (s : String) : Nat :=
  s.toList.foldl (fun n c => n + c.utf8Size) 0

/-- The order in which `_pretty_print` visits the children of a node:
the collected child ids sorted ascending (`children.sort()` sorts the
`Vec<NodeId>` by node id). -/
def SuffixTree.childPrintOrder (t : SuffixTree) (node : Nat) : List Nat :=
  match (t.nodes.get? node).bind Node.children? with
  | some cm => List.insertionSort (· ≤ ·) cm.iter
  | none => []

/-- The `format!` dispatch on `(i, j)` inside `_pretty_print`. -/
def connectLines (text indent : String) (rendered : List (List String)) :
    List String :=
  let n := rendered.length
  (rendered.enum.map (fun (il : Nat × List String) =>
    il.2.enum.map (fun (jl : Nat × String) =>
      if il.1 = 0 ∧ jl.1 = 0 then text ++ "┳" ++ jl.2
      else if jl.1 = 0 ∧ il.1 < n - 1 then indent ++ "┣" ++ jl.2
      else if il.1 < n - 1 then indent ++ "┃" ++ jl.2
      else if jl.1 = 0 then indent ++ "┗" ++ jl.2
      else indent ++ " " ++ jl.2))).flatten

/-- `_pretty_print`. -/
def SuffixTree.prettyPrintAux : Nat → SuffixTree → Nat → Option (List String)
  | 0, _, _ => none
  | fuel + 1, t, node => do
    let text ←
      (match t.nodes.get? node with
       | some (.root _) => some ""
       | some (.internal seqId start end_ _ _ _) => do
           let seq ← t.sequences.get? seqId
           seq.substring start (some end_)
       | some (.leaf seqId start) => do
           let seq ← t.sequences.get? seqId
           seq.substring start none
       | none => none : Option String)
    match (t.nodes.get? node).bind Node.children? with
    | some _ => do
        let indent := String.mk (List.replicate (utf8Length text) ' ')
        let rendered ← optionMapAll
          (fun child => SuffixTree.prettyPrintAux fuel t child)
          (t.childPrintOrder node)
        some (connectLines text indent rendered)
    | none => some [text]

/-- `SuffixTree::pretty_print`. -/
def SuffixTree.prettyPrint (t : SuffixTree) (fuel : Nat) : Option String :=
  (t.prettyPrintAux fuel 0).map (fun lines => String.intercalate "\n" lines)

/-! ## `SuffixTreeBuilder` (Ukkonen construction) -/

/-- `struct SuffixTreeBuilder`. -/
structure SuffixTreeBuilder where
  tree : SuffixTree
  activeNode : Nat
  activeEdge : Option (Symbol × Nat)
  position : Nat
  remaining : Nat
  previouslyCreatedNode : Option Nat
deriving DecidableEq, Repr

/-- `SuffixTreeBuilder::new`. -/
def SuffixTreeBuilder.new (alphabet : Option Alphabet) : SuffixTreeBuilder :=
  ⟨SuffixTree.new alphabet, 0, none, 0, 0, none⟩

/-- `SuffixTreeBuilder::set_suffix_link`
(`internal_node_mut(node).unwrap()` panics on a non-internal node). -/
def SuffixTreeBuilder.setSuffixLink (b : SuffixTreeBuilder) (linkTo : Nat) :
    Option SuffixTreeBuilder :=
  match b.previouslyCreatedNode with
  | none => some { b with previouslyCreatedNode := none }
  | some node =>
    match b.tree.nodes.get? node with
    | some (.internal i s e cm _ ss) =>
        some { b with
          tree := { b.tree with
            nodes := b.tree.nodes.set node (Node.internal i s e cm (some linkTo) ss) },
          previouslyCreatedNode := none }
    | _ => none

/-- `SuffixTreeBuilder::active_edge_node` (two `unwrap`s). -/
def SuffixTreeBuilder.activeEdgeNode (b : SuffixTreeBuilder) : Option Nat := do
  let (activeSymbol, _) ← b.activeEdge
  let c ← b.tree.getChild b.activeNode activeSymbol
  c

/-- `SuffixTreeBuilder::active_edge_lenght` (sic). -/
def SuffixTreeBuilder.activeEdgeLenght (b : SuffixTreeBuilder) : Option Nat := do
  let n ← b.activeEdgeNode
  match b.tree.nodes.get? n with
  | some (.internal _ start end_ _ _ _) => checkedSub end_ start
  | some (.leaf seqId start) => do
      let current ← b.tree.currentSequence
      let seq ← b.tree.sequences.get? seqId
      let offset := if seqId = current.id then 1 else 0
      checkedSub (seq.len + offset) start
  | _ => none

/-- `SuffixTreeBuilder::normalize_active_point`. -/
def SuffixTreeBuilder.normalizeActivePoint :
    Nat → SuffixTreeBuilder → Option SuffixTreeBuilder
  | 0, _ => none
  | fuel + 1, b =>
    match b.activeEdge with
    | none => some b
    | some (_, 0) => some { b with activeEdge := none }
    | some (_, activeLength) => do
        let edgeLength ← b.activeEdgeLenght
        if activeLength < edgeLength then some b
        else if activeLength = edgeLength then do
          let n ← b.activeEdgeNode
          some { b with activeNode := n, activeEdge := none }
        else do
          let n ← b.activeEdgeNode
          let d ← checkedSub b.position activeLength
          let activeSymbolIndex := d + edgeLength
          let current ← b.tree.currentSequence
          let sym ← current.atIndex activeSymbolIndex
          SuffixTreeBuilder.normalizeActivePoint fuel
            { b with activeNode := n,
                     activeEdge := some (sym, activeLength - edgeLength) }

/-- `SuffixTreeBuilder::update_active_point`. -/
def SuffixTreeBuilder.updateActivePoint (b : SuffixTreeBuilder) (fuel : Nat) :
    Option SuffixTreeBuilder := do
  let b1 ←
    match b.tree.nodes.get? b.activeNode with
    | none => none
    | some (.root _) =>
        match b.activeEdge with
        | some (_, length) => do
            let idx ← checkedSub (b.position + 2) b.remaining
            let current ← b.tree.currentSequence
            let sym ← current.atIndex idx
            let len1 ← checkedSub length 1
            some { b with activeEdge := some (sym, len1) }
        | none => some b
    | some (.internal _ _ _ _ (some node) _) => some { b with activeNode := node }
    | some (.internal _ _ _ _ none _) | some (.leaf _ _) => do
        let idx ← checkedSub (b.position + 2) b.remaining
        let current ← b.tree.currentSequence
        let sym ← current.atIndex idx
        let rem2 ← checkedSub b.remaining 2
        some { b with activeNode := 0, activeEdge := some (sym, rem2) }
  b1.normalizeActivePoint fuel

/-- `SuffixTreeBuilder::insert_leaf_node`; the `Bool` is the return value
`insert_node`. -/
def SuffixTreeBuilder.insertLeafNode (b : SuffixTreeBuilder) (nextSymbol : Symbol) :
    Option (Bool × SuffixTreeBuilder) := do
  let c ← b.tree.getChild b.activeNode nextSymbol
  if c.isNone then do
    let current ← b.tree.currentSequence
    let (leafNodeId, t1) := b.tree.addNode (Node.newLeaf current.id b.position)
    let t2 ← t1.addChild b.activeNode nextSymbol leafNodeId
    let b1 := { b with tree := t2 }
    if b1.activeNode ≠ 0 then do
      let b2 ← b1.setSuffixLink b1.activeNode
      some (true, b2)
    else some (true, b1)
  else some (false, b)

/-- `SuffixTreeBuilder::insert_internal_node`. -/
def SuffixTreeBuilder.insertInternalNode (b : SuffixTreeBuilder)
    (nextSymbol activeSymbol : Symbol) (activeLength : Nat) :
    Option (Bool × SuffixTreeBuilder) := do
  let activeEdgeNode ← b.activeEdgeNode
  let (activeSeqId, activeStart) ←
    (match b.tree.nodes.get? activeEdgeNode with
     | some (.internal seqId start _ _ _ _) => some (seqId, start)
     | some (.leaf seqId start) => some (seqId, start)
     | _ => none : Option (Nat × Nat))
  let splitPosition := activeStart + activeLength
  let activeSeq ← b.tree.sequences.get? activeSeqId
  let symbolAtSplitPos ← activeSeq.atIndex splitPosition
  if symbolAtSplitPos ≠ nextSymbol then do
    let t1 ←
      (match b.tree.nodes.get? activeEdgeNode with
       | some (.internal i _ e cm sl ss) =>
           some { b.tree with
             nodes := b.tree.nodes.set activeEdgeNode (Node.internal i splitPosition e cm sl ss) }
       | some (.leaf i _) =>
           some { b.tree with
             nodes := b.tree.nodes.set activeEdgeNode (Node.leaf i splitPosition) }
       | _ => none : Option SuffixTree)
    let (nodeA, t2) :=
      t1.addNode (Node.newInternal t1.alphabet.size activeSeqId activeStart splitPosition)
    let t3 ← t2.addChild b.activeNode activeSymbol nodeA
    let symbolAtSplit ← activeSeq.atIndex splitPosition
    let t4 ← t3.addChild nodeA symbolAtSplit activeEdgeNode
    let current ← t4.currentSequence
    let (nodeB, t5) := t4.addNode (Node.newLeaf current.id b.position)
    let t6 ← t5.addChild nodeA nextSymbol nodeB
    let b1 ← { b with tree := t6 }.setSuffixLink nodeA
    some (true, { b1 with previouslyCreatedNode := some nodeA })
  else some (false, b)

/-- `SuffixTreeBuilder::insert_node`. -/
def SuffixTreeBuilder.insertNode (b : SuffixTreeBuilder) (nextSymbol : Symbol) :
    Option (Bool × SuffixTreeBuilder) :=
  match b.activeEdge with
  | some (symbol, length) => b.insertInternalNode nextSymbol symbol length
  | none => b.insertLeafNode nextSymbol

/-- The `for _ in 0..self.remaining` loop of `insert_next_symbol`; the
iteration count is fixed when the loop starts. -/
def SuffixTreeBuilder.insertLoop (fuel : Nat) (nextSymbol : Symbol) :
    Nat → SuffixTreeBuilder → Option SuffixTreeBuilder
  | 0, b => some b
  | k + 1, b => do
      let (inserted, b1) ← b.insertNode nextSymbol
      if inserted then do
        let b2 ← b1.updateActivePoint fuel
        let r ← checkedSub b2.remaining 1
        SuffixTreeBuilder.insertLoop fuel nextSymbol k { b2 with remaining := r }
      else do
        let b2 := { b1 with activeEdge :=
          match b1.activeEdge with
          | some (symbol, length) => some (symbol, length + 1)
          | none => some (nextSymbol, 1) }
        b2.normalizeActivePoint fuel

/-- `SuffixTreeBuilder::insert_next_symbol`. -/
def SuffixTreeBuilder.insertNextSymbol (b : SuffixTreeBuilder) (fuel : Nat) :
    Option SuffixTreeBuilder := do
  let b1 := { b with remaining := b.remaining + 1, previouslyCreatedNode := none }
  let current ← b1.tree.currentSequence
  let nextSymbol ← current.atIndex b1.position
  let b2 ← SuffixTreeBuilder.insertLoop fuel nextSymbol b1.remaining b1
  some { b2 with position := b2.position + 1 }

/-- The `for _ in 0..len` loop of `add_sequence`. -/
def SuffixTreeBuilder.insertAll (fuel : Nat) :
    Nat → SuffixTreeBuilder → Option SuffixTreeBuilder
  | 0, b => some b
  | n + 1, b => do
      let b1 ← b.insertNextSymbol fuel
      SuffixTreeBuilder.insertAll fuel n b1

/-- `SuffixTreeBuilder::add_sequence`: delegates the capacity check to
`SuffixTree::add_sequence`, resets the active point and inserts the
extended symbol stream. -/
def SuffixTreeBuilder.addSequence (b : SuffixTreeBuilder) (sequence : List Nat)
    (fuel : Nat) : Option SuffixTreeBuilder := do
  let (st, tree1) := b.tree.addSequence sequence
  let _ ← st
  let b1 := { b with tree := tree1, position := 0, remaining := 0,
                     activeNode := 0, activeEdge := none }
  let current ← b1.tree.currentSequence
  SuffixTreeBuilder.insertAll fuel current.len b1

/-- `SuffixTreeBuilder::build`. -/
def SuffixTreeBuilder.build (b : SuffixTreeBuilder) (fuel : Nat) :
    Option SuffixTree :=
  b.tree.prepareLcs fuel

/-- `SuffixTree::from_sequence`. -/
def SuffixTree.fromSequence (sequence : List Nat) (alphabet : Option Alphabet)
    (fuel : Nat) : Option SuffixTree := do
  let builder := SuffixTreeBuilder.new alphabet
  let builder1 ← builder.addSequence sequence fuel
  builder1.build fuel

/-- `SuffixTree::from_sequences`. -/
def SuffixTree.fromSequences (sequences : List (List Nat))
    (alphabet : Option Alphabet) (fuel : Nat) : Option SuffixTree := do
  let builder := SuffixTreeBuilder.new alphabet
  let builder1 ← optionFoldl (fun bb s => bb.addSequence s fuel) builder sequences
  builder1.build fuel

/-- The free function `longest_common_subsequence`
(`take(1).last()` keeps only the first occurrence). -/
def longestCommonSubsequenceOf (sequences : List (List Nat))
    (alphabet : Option Alphabet) (fuel : Nat) : Option (Option (List Nat)) := do
  let t ← SuffixTree.fromSequences sequences alphabet fuel
  let occs ← t.longestCommonSubsequence fuel
  match (occs.take 1).getLast? with
  | none => some none
  | some (seqId, start, end_) => do
      let data ← t.sequenceById seqId
      let bytes ← sliceChecked data start end_
      some (some bytes)

/-! ## Well-formedness of a completed tree

The spec's global invariants on a completed tree (§3) specialised to what
the query layer relies on: every node's occurrence computation succeeds,
and at each occurrence position the node's incoming edge label is what the
owning sequence actually contains there.  `wellFormed` is decidable, so it
can be checked outright on concretely built trees. -/

/-- The label-coherence check at one node. -/
def SuffixTree.wfAt (t : SuffixTree) (fuel n : Nat) : Bool :=
  match SuffixTree.nodeOccurences fuel t n 0 with
  | none => false
  | some l =>
      l.all (fun p =>
        match t.labelBytes n, t.sequenceById p.1 with
        | some lb, some d => ((d.drop p.2).take lb.length) == lb
        | _, _ => false)

/-- No node of the arena has the root as a child. -/
def SuffixTree.noRootChild (t : SuffixTree) : Bool :=
  (List.range t.nodes.length).all (fun n =>
    match (t.nodes.get? n).bind Node.children? with
    | some cm => cm.iter.all (fun c =>
        match t.nodes.get? c with
        | some (.root _) => false
        | _ => true)
    | none => true)

/-- Decidable well-formedness of a completed tree. -/
def SuffixTree.wellFormed (t : SuffixTree) (fuel : Nat) : Bool :=
  (List.range t.nodes.length).all (t.wfAt fuel) && t.noRootChild

/-! ## Statement vocabulary for the claims -/

/-- The sequence ids of the leaves in the subtree rooted at a node
(panic mirroring `_prepare_lcs`: root or missing node). -/
def SuffixTree.leafIdsBelow : Nat → SuffixTree → Nat → Option (List Nat)
  | 0, _, _ => none
  | fuel + 1, t, n =>
    match t.nodes.get? n with
    | none => none
    | some (.root _) => none
    | some (.internal _ _ _ children _ _) =>
        (optionMapAll (SuffixTree.leafIdsBelow fuel t) children.iter).map List.flatten
    | some (.leaf seqId _) => some [seqId]

/-- The node ids visited starting from `n` following child maps. -/
def SuffixTree.reachAux (t : SuffixTree) : Nat → Nat → List Nat
  | 0, _ => []
  | fuel + 1, n =>
      n :: ((match (t.nodes.get? n).bind Node.children? with
             | some cm => cm.iter
             | none => []).map (t.reachAux fuel)).flatten

/-- The node ids visited by `prepare_lcs`: every root child's subtree. -/
def SuffixTree.reachables (t : SuffixTree) (fuel : Nat) : List Nat :=
  match t.rootNode with
  | some cm => (cm.iter.map (t.reachAux fuel)).flatten
  | none => []

/-- The first symbol of the incoming edge label of a node (the symbol at
the recorded start position of its owning sequence). -/
def SuffixTree.firstEdgeSymbol (t : SuffixTree) (c : Nat) : Option Symbol :=
  match t.nodes.get? c with
  | some (.internal seqId start _ _ _ _) =>
      (t.sequences.get? seqId).bind (fun s => s.atIndex start)
  | some (.leaf seqId start) =>
      (t.sequences.get? seqId).bind (fun s => s.atIndex start)
  | _ => none

/-- Comparison of optional first symbols; only pairs of regular symbols
are constrained, every pair involving a terminal is accepted. -/
def symbolLeB : Option Symbol → Option Symbol → Bool
  | some (.regular x), some (.regular y) => x ≤ y
  | _, _ => true

/-- `pairwiseLeB f l`: every element relates to every later element. -/
def pairwiseLeB (f : Nat → Option Symbol) : List Nat → Bool
  | [] => true
  | a :: rest => rest.all (fun b => symbolLeB (f a) (f b)) && pairwiseLeB f rest

/-- The pretty-print claim as stated: the children of a node are printed
in sorted order by the first symbol of their incoming edge label. -/
def SuffixTree.childrenSortedByFirstSymbol (t : SuffixTree) (n : Nat) : Prop :=
  pairwiseLeB (t.firstEdgeSymbol) (t.childPrintOrder n) = true

/-- `p` occurs as a (contiguous) substring of every sequence in `seqs`. -/
def occursInAllB (seqs : List (List Nat)) (p : List Nat) : Bool :=
  seqs.all (fun s =>
    (List.range (s.length + 1)).any (fun k => (s.drop k).take p.length == p))

/-! ## Concrete inputs used by witnesses and counterexamples -/

/-- The bytes of `b"test"`. -/
def testBytes : List Nat := [116, 101, 115, 116]

/-- The bytes of `b"rest"`. -/
def restBytes : List Nat := [114, 101, 115, 116]

/-- The tree built from `b"test"` with the default alphabet. -/
def treeTest : SuffixTree :=
  (SuffixTree.fromSequence testBytes none 64).getD (SuffixTree.new none)

/-- The tree built from `b"ba"` with the default alphabet. -/
def treeBA : SuffixTree :=
  (SuffixTree.fromSequence [98, 97] none 64).getD (SuffixTree.new none)

/-- The builder-produced tree for `b"test"` before `prepare_lcs`
(what `build()` passes to the LCS preparation). -/
def treeTestRaw : SuffixTree :=
  ((SuffixTreeBuilder.new none).addSequence testBytes 64).elim
    (SuffixTree.new none) (fun b => b.tree)

/-- A tree already holding the maximum number of sequences. -/
def tree128 : SuffixTree :=
  { alphabet := alphabetASCII,
    sequences := (List.range 128).map (fun i => Sequence.new i []),
    nodes := [Node.newRoot alphabetASCII.size] }

/-- Soundness target of `find_node`: every occurrence of the landing node
carries the full pattern ending `rem` symbols into the node's label. -/
def FindPost (t : SuffixTree) (F : Nat) (p : List Nat) (nd rem : Nat) : Prop :=
  ∀ l, SuffixTree.nodeOccurences F t nd 0 = some l →
    ∀ pr ∈ l, p.length ≤ pr.2 + rem ∧
      ∃ d, t.sequenceById pr.1 = some d ∧
        listSlice d (pr.2 + rem - p.length) (pr.2 + rem) = p

/-- Loop invariant of `find_node`: at every occurrence of the current
node, the pattern prefix consumed so far is spelled immediately before
the end of the node's label. -/
def FindPre (t : SuffixTree) (F : Nat) (p : List Nat) (cur rem : Nat) : Prop :=
  ∀ l, SuffixTree.nodeOccurences F t cur 0 = some l →
    ∀ pr ∈ l, ∃ L d, t.labelBytes cur = some L ∧
      t.sequenceById pr.1 = some d ∧
      (d.drop pr.2).take L.length = L ∧
      (p.length - rem) ≤ pr.2 + L.length ∧
      listSlice d (pr.2 + L.length - (p.length - rem)) (pr.2 + L.length) =
        p.take (p.length - rem)

/-- Erase the `sequence_id_set` cell of a node: `prepare_lcs` writes only
this field, so trees before and after preparation agree after erasure. -/
def Node.eraseCell : Node → Node
  | .internal i s e cm sl _ => .internal i s e cm sl none
  | n => n

/-- Two trees with the same sequences and the same nodes up to the
`sequence_id_set` cells. -/
def sameShape (t t' : SuffixTree) : Prop :=
  t.sequences = t'.sequences ∧
  t.nodes.map Node.eraseCell = t'.nodes.map Node.eraseCell

/-! # Theorems -/

set_option maxRecDepth 100000 in
/-- The `ASCII` lazy static is successfully constructed from the 52 letter
bytes. -/
theorem alphabetASCII_eq : Alphabet.new asciiSymbols = some alphabetASCII := by
  decide

/-! ## C9: empty patterns -/

/-- C9: on every tree, `contains` and `find` with the empty pattern
evaluate `pattern[0]` on a pattern of length 0 — the out-of-bounds branch
of the embedding — on the first loop iteration, and return no result. -/
theorem empty_pattern_hits_out_of_bounds (t : SuffixTree) (fuel : Nat) :
    ([] : List Nat).get? 0 = none ∧
    t.findNodeLoop [] (fuel + 1) 0 0 = none ∧
    t.contains [] (fuel + 1) = none ∧
    t.find [] (fuel + 1) = none :=
  ⟨rfl, rfl, rfl, rfl⟩

/-! ## C10: zero sequences -/

/-- C10: on the tree built from an empty list of sequences,
`longest_common_subsequence` yields no triples, even though the mask shift
`u128::max_value() >> (128 - 0)` is undefined (the root has no children,
so the shift is never evaluated). -/
theorem lcs_empty_tree_no_triples (fuelB fuel : Nat) :
    (SuffixTree.fromSequences [] none fuelB).bind
      (fun t => t.longestCommonSubsequence fuel) = some [] ∧
    maskOf 0 = none :=
  ⟨rfl, rfl⟩

/-! ## C6: capacity check -/

/-- C6: `add_sequence` on a tree that already holds 128 sequences is
rejected by the capacity `assert!` before any mutation: the call panics
and the exit state (sequence list and node arena included) is the
unchanged input tree. -/
theorem add_sequence_capacity_rejected (t : SuffixTree) (data : List Nat)
    (h : 128 ≤ t.sequences.length) :
    t.addSequence data = (none, t) := by
  have hn : ¬ t.sequences.length < 128 := by omega
  simp [SuffixTree.addSequence, hn]

set_option maxRecDepth 4000 in
/-- Witness for C6 at a concrete 128-sequence tree. -/
theorem add_sequence_capacity_rejected_witness :
    128 ≤ tree128.sequences.length ∧
    SuffixTree.addSequence tree128 [] = (none, tree128) :=
  ⟨by decide, add_sequence_capacity_rejected tree128 [] (by decide)⟩

/-! ## C2: the default alphabet -/

/-- Counterexample for C2: with no alphabet supplied, construction panics
on the byte-48 sequence, and lookup of the byte-48 pattern panics on the
tree built from `b"a"` — the default alphabet does not cover all of
`[0, 256)`. -/
theorem default_alphabet_byte48_counterexample :
    SuffixTree.fromSequence [48] none 16 = none ∧
    (SuffixTree.fromSequence [97] none 16).bind
      (fun t => t.contains [48] 16) = none := by
  constructor <;> decide

set_option maxRecDepth 100000 in
/-- C2 (amended): when no alphabet is supplied the tree uses the 52-letter
`ASCII` alphabet, and the rank lookup on which construction and pattern
lookup rely succeeds exactly for the letter bytes `a`–`z`, `A`–`Z`. -/
theorem default_alphabet_is_ascii_letters :
    (SuffixTree.new none).alphabet = alphabetASCII ∧
    ∀ b : Nat, (alphabetASCII.rankOfSymbol b).isSome = true ↔
      ((97 ≤ b ∧ b ≤ 122) ∨ (65 ≤ b ∧ b ≤ 90)) := by
  refine ⟨rfl, fun b => ?_⟩
  by_cases hb : b < 255
  · exact (by decide :
      ∀ b, b < 255 → ((alphabetASCII.rankOfSymbol b).isSome = true ↔
        ((97 ≤ b ∧ b ≤ 122) ∨ (65 ≤ b ∧ b ≤ 90)))) b hb
  · have hlen : alphabetASCII.ranks.length = 255 := by decide
    have hnone : alphabetASCII.ranks.get? b = none := by
      rw [List.get?_eq_none]
      omega
    unfold Alphabet.rankOfSymbol
    rw [hnone]
    simp
    omega

/-! ## C3: LCS on a single sequence -/

/-- C3, evaluated at the failing input: the convenience
`longest_common_subsequence` on the single sequence `b"test"` returns
`b"t"`, yet `b"test"` itself occurs in every inserted sequence and is
strictly longer. -/
theorem lcs_single_sequence_not_longest :
    longestCommonSubsequenceOf [testBytes] none 64 = some (some [116]) ∧
    occursInAllB [testBytes] testBytes = true ∧
    ([116] : List Nat).length < testBytes.length := by
  refine ⟨by decide, by decide, by decide⟩

/-! ## C8: pretty-print child order -/

/-- Counterexample for C8: in the tree built from `b"ba"` the root's
children are printed in the order node 1 (edge starting with byte 98),
node 2 (byte 97), node 3 — not sorted by first symbol. -/
theorem pretty_print_not_sorted_by_symbol :
    ¬ SuffixTree.childrenSortedByFirstSymbol treeBA 0 := by
  unfold SuffixTree.childrenSortedByFirstSymbol
  decide

/-- C8 (amended): `pretty_print` visits the children of every node in
ascending node-id order (`children.sort()` sorts the collected ids). -/
theorem pretty_print_children_by_node_id (t : SuffixTree) (n : Nat) :
    List.Sorted (· ≤ ·) (t.childPrintOrder n) := by
  unfold SuffixTree.childPrintOrder
  cases (t.nodes.get? n).bind Node.children? with
  | none => exact List.sorted_nil
  | some cm => exact List.sorted_insertionSort _ _

/-- Sanity anchor: the embedding reproduces the crate's golden
pretty-print output for `["test", "rest"]` byte for byte. -/
theorem pretty_print_golden :
    (SuffixTree.fromSequences [testBytes, restBytes] none 64).bind
      (fun t => t.prettyPrint 64) =
    some "┳t┳est$0\n┃ ┣$0\n┃ ┗$1\n┣$0\n┣rest$1\n┣est┳$0\n┃   ┗$1\n┣st┳$0\n┃  ┗$1\n┗$1" := by
  decide

/-- Sanity anchor: every nonempty suffix of `b"test"` is contained in the
tree built from it. -/
theorem suffix_coverage_concrete_test :
    ∀ k, k < 4 → treeTest.contains (testBytes.drop k) 64 = some true := by
  decide

/-- Sanity anchor: for every nonempty suffix of `b"test"`, `find` yields a
nonempty list of triples and every triple decodes to that suffix. -/
theorem suffix_find_concrete_test :
    ∀ k, k < 4 →
      (treeTest.find (testBytes.drop k) 64).getD [] ≠ [] ∧
      ((treeTest.find (testBytes.drop k) 64).getD []).all
        (fun tr => listSlice ((treeTest.sequenceById tr.1).getD []) tr.2.1 tr.2.2
          == testBytes.drop k) = true := by
  decide

/-- Sanity anchor: the tree over the empty sequence builds, but querying
the byte content of its only suffix — the terminal one, whose byte
pattern is empty — panics instead of returning `true`. -/
theorem terminal_suffix_query_panics :
    (SuffixTree.fromSequence [] none 16).isSome = true ∧
    (SuffixTree.fromSequence [] none 16).bind
      (fun t => t.contains [] 16) = none := by
  constructor <;> decide

/-! ## C4 infrastructure: `optionMapAll` and `node_occurences` lemmas -/

lemma optionMapAll_mem_some {f : α → Option β} :
    ∀ {l : List α} {ys : List β}, optionMapAll f l = some ys →
      ∀ a ∈ l, ∃ b ∈ ys, f a = some b := by
  intro l
  induction l with
  | nil => intro ys h a ha; cases ha
  | cons x xs ih =>
      intro ys h a ha
      simp only [optionMapAll, Option.bind_eq_bind, Option.bind_eq_some, Option.some.injEq] at h
      obtain ⟨b, hb, bs, hbs, rfl⟩ := h
      rcases List.mem_cons.mp ha with rfl | ha'
      · exact ⟨b, List.mem_cons_self _ _, hb⟩
      · obtain ⟨b', hb', hfb'⟩ := ih hbs a ha'
        exact ⟨b', List.mem_cons_of_mem _ hb', hfb'⟩

lemma optionMapAll_mem_rev {f : α → Option β} :
    ∀ {l : List α} {ys : List β}, optionMapAll f l = some ys →
      ∀ b ∈ ys, ∃ a ∈ l, f a = some b := by
  intro l
  induction l with
  | nil =>
      intro ys h b hb
      simp only [optionMapAll] at h
      cases h
      cases hb
  | cons x xs ih =>
      intro ys h b hb
      simp only [optionMapAll, Option.bind_eq_bind, Option.bind_eq_some, Option.some.injEq] at h
      obtain ⟨b0, hb0, bs, hbs, rfl⟩ := h
      rcases List.mem_cons.mp hb with rfl | hb'
      · exact ⟨x, List.mem_cons_self _ _, hb0⟩
      · obtain ⟨a, ha, hfa⟩ := ih hbs b hb'
        exact ⟨a, List.mem_cons_of_mem _ ha, hfa⟩

lemma optionMapAll_strengthen {f g : α → Option β} :
    ∀ {l : List α} {ys : List β},
      (∀ a ∈ l, ∀ b, f a = some b → g a = some b) →
      optionMapAll f l = some ys → optionMapAll g l = some ys := by
  intro l
  induction l with
  | nil => intro ys _ h; exact h
  | cons x xs ih =>
      intro ys hstr h
      simp only [optionMapAll, Option.bind_eq_bind, Option.bind_eq_some, Option.some.injEq] at h ⊢
      obtain ⟨b, hb, bs, hbs, rfl⟩ := h
      exact ⟨b, hstr x (List.mem_cons_self _ _) b hb,
        bs, ih (fun a ha => hstr a (List.mem_cons_of_mem _ ha)) hbs, rfl⟩

lemma optionMapAll_map {f : α → Option (List β)} {g : α → Option (List γ)}
    {m : β → γ} :
    ∀ {l : List α} {ys : List (List β)},
      (∀ a ∈ l, ∀ b, f a = some b → g a = some (b.map m)) →
      optionMapAll f l = some ys →
      optionMapAll g l = some (ys.map (List.map m)) := by
  intro l
  induction l with
  | nil =>
      intro ys _ h
      simp only [optionMapAll] at h
      cases h
      rfl
  | cons x xs ih =>
      intro ys hstr h
      simp only [optionMapAll, Option.bind_eq_bind, Option.bind_eq_some, Option.some.injEq] at h ⊢
      obtain ⟨b, hb, bs, hbs, rfl⟩ := h
      exact ⟨b.map m, hstr x (List.mem_cons_self _ _) b hb,
        bs.map (List.map m),
        ih (fun a ha => hstr a (List.mem_cons_of_mem _ ha)) hbs, rfl⟩

/-- `node_occurences` is monotone in the fuel. -/
lemma nodeOccurences_mono {t : SuffixTree} :
    ∀ {fuel n d l}, SuffixTree.nodeOccurences fuel t n d = some l →
      SuffixTree.nodeOccurences (fuel + 1) t n d = some l := by
  intro fuel
  induction fuel with
  | zero => intro n d l h; simp [SuffixTree.nodeOccurences] at h
  | succ fm ih =>
      intro n d l h
      rw [SuffixTree.nodeOccurences] at h
      rw [SuffixTree.nodeOccurences]
      cases hn : t.nodes.get? n with
      | none => rw [hn] at h; exact absurd h (by simp)
      | some node =>
          rw [hn] at h
          cases node with
          | root cm => exact h
          | leaf seqId start => exact h
          | internal seqId start end_ cm sl ss =>
              simp only [Option.bind_eq_bind, Option.bind_eq_some, Option.some.injEq] at h ⊢
              obtain ⟨el, hel, ls, hls, hres⟩ := h
              exact ⟨el, hel, ls,
                optionMapAll_strengthen (fun a _ b hb => ih hb) hls, hres⟩

/-- `node_occurences` at larger fuel. -/
lemma nodeOccurences_mono_le {t : SuffixTree} {fuel fuel' n d l}
    (hle : fuel ≤ fuel')
    (h : SuffixTree.nodeOccurences fuel t n d = some l) :
    SuffixTree.nodeOccurences fuel' t n d = some l := by
  induction hle with
  | refl => exact h
  | step _ ih => exact nodeOccurences_mono ih

/-- Shifting the depth argument of `node_occurences` shifts every reported
position. -/
lemma nodeOccurences_shift {t : SuffixTree} :
    ∀ {fuel n a b l}, SuffixTree.nodeOccurences fuel t n (a + b) = some l →
      SuffixTree.nodeOccurences fuel t n b =
        some (l.map (fun pr => (pr.1, pr.2 + a))) := by
  intro fuel
  induction fuel with
  | zero => intro n a b l h; simp [SuffixTree.nodeOccurences] at h
  | succ fm ih =>
      intro n a b l h
      rw [SuffixTree.nodeOccurences] at h
      rw [SuffixTree.nodeOccurences]
      cases hn : t.nodes.get? n with
      | none => rw [hn] at h; exact absurd h (by simp)
      | some node =>
          rw [hn] at h
          cases node with
          | root cm => cases h; rfl
          | leaf seqId start =>
              simp only [Option.bind_eq_bind, Option.bind_eq_some, Option.some.injEq] at h ⊢
              obtain ⟨pos, hpos, hres⟩ := h
              simp only [checkedSub] at hpos
              split at hpos
              · cases hpos
                cases hres
                refine ⟨start - b, ?_, ?_⟩
                · simp only [checkedSub]
                  rw [if_pos (by omega)]
                · simp only [List.map_cons, List.map_nil]
                  congr 2
                  omega
              · cases hpos
          | internal seqId start end_ cm sl ss =>
              simp only [Option.bind_eq_bind, Option.bind_eq_some, Option.some.injEq] at h ⊢
              obtain ⟨el, hel, ls, hls, hres⟩ := h
              cases hres
              refine ⟨el, hel, ls.map (List.map (fun pr => (pr.1, pr.2 + a))), ?_, ?_⟩
              · refine optionMapAll_map (fun c _ lc hlc => ?_) hls
                have : a + b + el = a + (b + el) := by omega
                rw [this] at hlc
                exact ih hlc
              · rw [List.map_flatten]

/-! ## C4 infrastructure: child membership and labels -/

lemma assocGet_mem_values :
    ∀ {m : List (Nat × Nat)} {k v : Nat}, assocGet m k = some v →
      v ∈ m.map (fun p => p.2) := by
  intro m
  induction m with
  | nil => intro k v h; simp [assocGet] at h
  | cons kv rest ih =>
      intro k v h
      obtain ⟨k', v'⟩ := kv
      simp only [assocGet] at h
      split at h
      · cases h; simp
      · simpa using Or.inr (ih h)

lemma ChildMap.getChild_mem_iter {cm : ChildMap} {al : Alphabet} {sym : Symbol}
    {c : Nat} (h : cm.getChild al sym = some (some c)) : c ∈ cm.iter := by
  cases sym with
  | terminal seqId =>
      simp only [ChildMap.getChild, Option.some.injEq] at h
      exact List.mem_append_left _ (assocGet_mem_values h)
  | regular b =>
      simp only [ChildMap.getChild, Option.bind_eq_bind, Option.bind_eq_some] at h
      obtain ⟨rank, _, hget⟩ := h
      refine List.mem_append_right _ ?_
      rw [List.mem_filterMap]
      exact ⟨some c, List.get?_mem hget, rfl⟩

lemma SuffixTree.getChild_mem {t : SuffixTree} {parent : Nat} {sym : Symbol}
    {c : Nat} (h : t.getChild parent sym = some (some c)) :
    ∃ node, t.nodes.get? parent = some node ∧
      ∃ cm, node.children? = some cm ∧ c ∈ cm.iter := by
  simp only [SuffixTree.getChild, Option.bind_eq_bind, Option.bind_eq_some] at h
  obtain ⟨node, hnode, hgc⟩ := h
  refine ⟨node, hnode, ?_⟩
  unfold Node.getChildN at hgc
  cases hcm : node.children? with
  | none => rw [hcm] at hgc; cases hgc
  | some cm =>
      rw [hcm] at hgc
      exact ⟨cm, rfl, ChildMap.getChild_mem_iter hgc⟩

/-- On an internal node, a successful `labelBytes` describes the slice. -/
lemma SuffixTree.labelBytes_internal {t : SuffixTree} {n i s e : Nat}
    {cm : ChildMap} {sl ss : Option Nat} {L : List Nat}
    (hn : t.nodes.get? n = some (.internal i s e cm sl ss))
    (hL : t.labelBytes n = some L) :
    ∃ seq, t.sequences.get? i = some seq ∧ s ≤ e ∧ e ≤ seq.data.length ∧
      L = (seq.data.drop s).take (e - s) ∧ L.length = e - s := by
  unfold SuffixTree.labelBytes at hL
  rw [hn] at hL
  simp only [Option.bind_eq_bind, Option.bind_eq_some] at hL
  obtain ⟨seq, hseq, hslice⟩ := hL
  simp only [sliceChecked] at hslice
  split at hslice
  · rename_i hcond
    cases hslice
    refine ⟨seq, hseq, hcond.1, hcond.2, rfl, ?_⟩
    rw [List.length_take, List.length_drop]
    omega
  · cases hslice

/-- A node with a successful `labelBytes` is not the root. -/
lemma SuffixTree.labelBytes_not_root {t : SuffixTree} {n : Nat} {L : List Nat}
    {cmr : ChildMap} (hL : t.labelBytes n = some L)
    (hn : t.nodes.get? n = some (.root cmr)) : False := by
  unfold SuffixTree.labelBytes at hL
  rw [hn] at hL
  cases hL

/-- Extract the per-node facts from `wellFormed`. -/
lemma SuffixTree.wellFormed_wfAt {t : SuffixTree} {F n : Nat}
    (h : t.wellFormed F = true) (hn : n < t.nodes.length) :
    t.wfAt F n = true := by
  unfold SuffixTree.wellFormed at h
  rw [Bool.and_eq_true] at h
  exact (List.all_eq_true.mp h.1) n (List.mem_range.mpr hn)

lemma SuffixTree.wfAt_spec {t : SuffixTree} {F n : Nat}
    (h : t.wfAt F n = true) :
    ∃ l, SuffixTree.nodeOccurences F t n 0 = some l ∧
      ∀ pr ∈ l, ∃ L d, t.labelBytes n = some L ∧
        t.sequenceById pr.1 = some d ∧ (d.drop pr.2).take L.length = L := by
  unfold SuffixTree.wfAt at h
  cases hocc : SuffixTree.nodeOccurences F t n 0 with
  | none => rw [hocc] at h; cases h
  | some l =>
      rw [hocc] at h
      refine ⟨l, rfl, fun pr hpr => ?_⟩
      have := (List.all_eq_true.mp h) pr hpr
      cases hL : t.labelBytes n with
      | none => rw [hL] at this; cases this
      | some L =>
          rw [hL] at this
          cases hd : t.sequenceById pr.1 with
          | none => rw [hd] at this; cases this
          | some d =>
              rw [hd] at this
              exact ⟨L, d, rfl, rfl, by simpa using this⟩

lemma SuffixTree.noRootChild_spec {t : SuffixTree} {n : Nat} {node : Node}
    {cm cmr : ChildMap} {c : Nat}
    (h : t.noRootChild = true)
    (hn : t.nodes.get? n = some node)
    (hcm : node.children? = some cm) (hc : c ∈ cm.iter)
    (hcr : t.nodes.get? c = some (.root cmr)) : False := by
  unfold SuffixTree.noRootChild at h
  have hlt : n < t.nodes.length := by
    by_contra hge
    rw [List.get?_eq_none.mpr (by omega)] at hn
    cases hn
  have := (List.all_eq_true.mp h) n (List.mem_range.mpr hlt)
  rw [hn] at this
  simp only [Option.some_bind] at this
  rw [hcm] at this
  have := (List.all_eq_true.mp this) c hc
  rw [hcr] at this
  cases this

/-! ## C4 infrastructure: slice algebra and the occurrence lift -/

lemma listSlice_split {d : List Nat} {a b c : Nat} (hab : a ≤ b) (hbc : b ≤ c) :
    listSlice d a c = listSlice d a b ++ listSlice d b c := by
  unfold listSlice
  rw [show c - a = (b - a) + (c - b) by omega, List.take_add, List.drop_drop,
    show a + (b - a) = b by omega]

lemma listSlice_refl (d : List Nat) (a : Nat) : listSlice d a a = [] := by
  simp [listSlice]

/-- Each occurrence of a child of an internal node is an occurrence of the
node, shifted by the node's edge length. -/
lemma nodeOccurences_child_lift {t : SuffixTree} {F cur : Nat}
    {i s e : Nat} {cm : ChildMap} {sl ss : Option Nat}
    {lc : List (Nat × Nat)} {child : Nat}
    (hn : t.nodes.get? cur = some (.internal i s e cm sl ss))
    (hocc : SuffixTree.nodeOccurences F t cur 0 = some lc)
    (hc : child ∈ cm.iter) :
    ∃ l', SuffixTree.nodeOccurences F t child 0 = some l' ∧
      ∀ pr ∈ l', e - s ≤ pr.2 ∧ (pr.1, pr.2 - (e - s)) ∈ lc := by
  cases F with
  | zero => simp [SuffixTree.nodeOccurences] at hocc
  | succ fm =>
      rw [SuffixTree.nodeOccurences, hn] at hocc
      simp only [Option.bind_eq_bind, Option.bind_eq_some, Option.some.injEq] at hocc
      obtain ⟨el, hel, ls, hls, hflat⟩ := hocc
      simp only [checkedSub] at hel
      split at hel
      on_goal 2 => cases hel
      cases hel
      obtain ⟨lv, hlv, hchild⟩ := optionMapAll_mem_some hls child hc
      rw [Nat.zero_add] at hchild
      have hshift := nodeOccurences_shift (a := e - s) (b := 0) hchild
      have hmono := nodeOccurences_mono hshift
      refine ⟨lv.map (fun pr => (pr.1, pr.2 + (e - s))), hmono, fun pr hpr => ?_⟩
      rw [List.mem_map] at hpr
      obtain ⟨q, hq, rfl⟩ := hpr
      refine ⟨by simp, ?_⟩
      have hqeq : (q.1, q.2 + (e - s) - (e - s)) = q := by simp
      rw [hqeq, ← hflat]
      exact List.mem_flatten.mpr ⟨lv, hlv, hq⟩

lemma get_some_lt {l : List α} {n : Nat} {a : α} (h : l.get? n = some a) :
    n < l.length := by
  by_contra hge
  rw [List.get?_eq_none.mpr (by omega)] at h
  cases h

lemma SuffixTree.labelBytes_node {t : SuffixTree} {n : Nat} {L : List Nat}
    (h : t.labelBytes n = some L) : ∃ node, t.nodes.get? n = some node := by
  unfold SuffixTree.labelBytes at h
  cases hn : t.nodes.get? n with
  | none => rw [hn] at h; cases h
  | some node => exact ⟨node, rfl⟩

/-- Soundness of the `find_node` loop with respect to label coherence. -/
lemma findNodeLoop_sound {t : SuffixTree} {F : Nat} {p : List Nat}
    (hwf : t.wellFormed F = true) :
    ∀ fl cur rem nd r,
      rem ≤ p.length →
      (∀ cmr, t.nodes.get? cur = some (.root cmr) → rem = p.length) →
      FindPre t F p cur rem →
      t.findNodeLoop p fl cur rem = some (some (nd, r)) →
      FindPost t F p nd r := by
  intro fl
  induction fl with
  | zero =>
      intro cur rem nd r _ _ _ h
      simp [SuffixTree.findNodeLoop] at h
  | succ fm ih =>
      intro cur rem nd r hrem hroot hpre h
      rw [SuffixTree.findNodeLoop] at h
      cases hbyte : p.get? (p.length - rem) with
      | none => rw [hbyte] at h; cases h
      | some byte =>
          rw [hbyte] at h
          simp only [Option.bind_eq_bind, Option.bind_eq_some] at h
          obtain ⟨co, hco, h⟩ := h
          cases co with
          | none => simp at h
          | some child =>
              simp only [Option.bind_eq_some] at h
              obtain ⟨label, hlabel, h⟩ := h
              -- facts about the current node and the chosen child
              obtain ⟨nodeCur, hnodeCur, cmCur, hcmCur, hmem⟩ :=
                SuffixTree.getChild_mem hco
              obtain ⟨nodeChild, hnodeChild⟩ := SuffixTree.labelBytes_node hlabel
              have hchildlt : child < t.nodes.length := get_some_lt hnodeChild
              obtain ⟨lchild, hlchild, hlchildmem⟩ :=
                SuffixTree.wfAt_spec (SuffixTree.wellFormed_wfAt hwf hchildlt)
              have hnotroot : ∀ cmr, t.nodes.get? child = some (.root cmr) → False :=
                fun cmr hc => SuffixTree.labelBytes_not_root hlabel hc
              -- the consumed prefix is spelled before each occurrence of the child
              have hstep : ∀ pr ∈ lchild, ∃ d,
                  t.sequenceById pr.1 = some d ∧
                  (d.drop pr.2).take label.length = label ∧
                  (p.length - rem) ≤ pr.2 ∧
                  listSlice d (pr.2 - (p.length - rem)) pr.2 =
                    p.take (p.length - rem) := by
                intro pr hpr
                obtain ⟨L0, d, hL0, hd, hprefix⟩ := hlchildmem pr hpr
                rw [hlabel] at hL0
                cases hL0
                cases nodeCur with
                | leaf a b => simp [Node.children?] at hcmCur
                | root cmr =>
                    have h0 := hroot cmr hnodeCur
                    refine ⟨d, hd, hprefix, by omega, ?_⟩
                    rw [show p.length - rem = 0 by omega]
                    simp [listSlice_refl]
                | internal i s e cmi sli ssi =>
                    cases hcmCur
                    have hcurlt : cur < t.nodes.length := get_some_lt hnodeCur
                    obtain ⟨lcur, hlcur, hlcurmem⟩ :=
                      SuffixTree.wfAt_spec (SuffixTree.wellFormed_wfAt hwf hcurlt)
                    obtain ⟨l', hl', hlift⟩ :=
                      nodeOccurences_child_lift hnodeCur hlcur hmem
                    rw [hlchild] at hl'
                    cases hl'
                    obtain ⟨hge, hin⟩ := hlift pr hpr
                    obtain ⟨Lc, d', hLc, hd', hprefixc, hdep, hslice⟩ :=
                      hpre lcur hlcur _ hin
                    rw [hd] at hd'
                    cases hd'
                    obtain ⟨seq, hseq, hse, hselen, hLeq, hLlen⟩ :=
                      SuffixTree.labelBytes_internal hnodeCur hLc
                    rw [hLlen] at hdep hslice
                    rw [show pr.2 - (e - s) + (e - s) = pr.2 by omega] at hdep hslice
                    exact ⟨d, hd, hprefix, hdep, hslice⟩
              -- helper: a successful return at (child, rem') with
              -- rem' ≤ label.length and matched tail gives the postcondition
              have hpost : ∀ rem', rem' ≤ rem → rem' ≤ label.length →
                  (p.drop (p.length - rem)).take rem' = label.take rem' →
                  p.length - rem + rem' = p.length →
                  FindPost t F p child rem' := by
                intro rem' hr1 hr2 hmatch hfull l hl pr hpr
                rw [hlchild] at hl
                cases hl
                obtain ⟨d, hd, hprefix, hdep, hslice⟩ := hstep pr hpr
                refine ⟨by omega, d, hd, ?_⟩
                rw [show pr.2 + rem' - p.length = pr.2 - (p.length - rem) by omega]
                rw [listSlice_split (by omega) (by omega : pr.2 ≤ pr.2 + rem'),
                  hslice]
                have htail : listSlice d pr.2 (pr.2 + rem') = label.take rem' := by
                  unfold listSlice
                  rw [show pr.2 + rem' - pr.2 = rem' by omega, ← hprefix,
                    List.take_take, Nat.min_eq_left hr2]
                have hdrop : (p.drop (p.length - rem)).take rem' =
                    p.drop (p.length - rem) :=
                  List.take_of_length_le (by rw [List.length_drop]; omega)
                rw [htail, ← hmatch, hdrop]
                exact List.take_append_drop _ _
              -- branch analysis
              by_cases hlt : rem < label.length
              · rw [if_pos hlt] at h
                by_cases hne : p.drop (p.length - rem) ≠ label.take rem
                · rw [if_pos hne] at h; simp at h
                · rw [if_neg hne] at h
                  push_neg at hne
                  cases h
                  refine hpost rem (le_refl rem) (by omega) ?_ (by omega)
                  rw [hne, List.take_take, Nat.min_self]
              · rw [if_neg hlt] at h
                by_cases hsl : (p.drop (p.length - rem)).take label.length ≠ label
                · rw [if_pos hsl] at h; simp at h
                · rw [if_neg hsl] at h
                  push_neg at hsl
                  by_cases hre : rem = label.length
                  · rw [if_pos hre] at h
                    cases h
                    refine hpost rem (le_refl rem) (by omega) ?_ (by omega)
                    conv_rhs => rw [← hsl]
                    rw [List.take_take, Nat.min_eq_left (by omega)]
                  · rw [if_neg hre] at h
                    simp only [Option.bind_eq_bind, Option.bind_eq_some] at h
                    obtain ⟨node0, hnode0, h⟩ := h
                    rw [hnodeChild] at hnode0
                    cases hnode0
                    by_cases hleaf : nodeChild.isLeaf
                    · rw [if_pos hleaf] at h; simp at h
                    · rw [if_neg hleaf] at h
                      refine ih child (rem - label.length) nd r (by omega)
                        (fun cmr hc => absurd hc (fun hc => hnotroot cmr hc))
                        ?_ h
                      intro l hl pr hpr
                      rw [hlchild] at hl
                      cases hl
                      obtain ⟨d, hd, hprefix, hdep, hslice⟩ := hstep pr hpr
                      refine ⟨label, d, hlabel, hd, hprefix, by omega, ?_⟩
                      have hd2 : p.length - (rem - label.length) =
                          (p.length - rem) + label.length := by omega
                      rw [hd2,
                        show pr.2 + label.length - ((p.length - rem) + label.length)
                          = pr.2 - (p.length - rem) by omega]
                      rw [listSlice_split (by omega)
                          (by omega : pr.2 ≤ pr.2 + label.length), hslice]
                      have htail : listSlice d pr.2 (pr.2 + label.length) = label := by
                        unfold listSlice
                        rw [show pr.2 + label.length - pr.2 = label.length by omega,
                          hprefix]
                      rw [htail, List.take_add, hsl]

lemma nodeOccurences_node_lt {fuel : Nat} {t : SuffixTree} {n d : Nat}
    {l : List (Nat × Nat)}
    (h : SuffixTree.nodeOccurences fuel t n d = some l) : n < t.nodes.length := by
  cases fuel with
  | zero => simp [SuffixTree.nodeOccurences] at h
  | succ fm =>
      rw [SuffixTree.nodeOccurences] at h
      cases hn : t.nodes.get? n with
      | none => rw [hn] at h; cases h
      | some node => exact get_some_lt hn

/-! ## C4: no false positives among emitted occurrences -/

/-- C4: on a well-formed tree, if `contains(p)` is true then every triple
`(i, s, e)` yielded by `find(p)` satisfies `sequence_by_id(i)[s..e] = p`. -/
theorem find_no_false_positives (t : SuffixTree) (F : Nat) (p : List Nat)
    (l : List (Nat × Nat × Nat))
    (hwf : t.wellFormed F = true)
    (hc : t.contains p F = some true)
    (hf : t.find p F = some l) :
    ∀ tr ∈ l, ∃ d, t.sequenceById tr.1 = some d ∧
      listSlice d tr.2.1 tr.2.2 = p := by
  unfold SuffixTree.contains at hc
  cases hfn : t.findNode p F with
  | none => rw [hfn] at hc; cases hc
  | some ro =>
      rw [hfn] at hc
      cases ro with
      | none => simp at hc
      | some ndr =>
          obtain ⟨nd, r⟩ := ndr
          unfold SuffixTree.find at hf
          rw [hfn] at hf
          have hf2 : ((SuffixTree.nodeOccurences F t nd 0).bind fun occs =>
              optionMapAll (fun (p0 : Nat × Nat) =>
                (checkedSub (p0.2 + r) p.length).bind fun start =>
                  some (p0.1, start, p0.2 + r)) occs) = some l := hf
          simp only [Option.bind_eq_bind, Option.bind_eq_some] at hf2
          obtain ⟨ol, hol, hmap⟩ := hf2
          -- the entry invariant of the loop holds at the root
          have hpre0 : FindPre t F p 0 p.length := by
            intro l0 hl0 pr hpr
            have h0lt : 0 < t.nodes.length := nodeOccurences_node_lt hl0
            obtain ⟨l1, hl1, hmem1⟩ :=
              SuffixTree.wfAt_spec (SuffixTree.wellFormed_wfAt hwf h0lt)
            rw [hl0] at hl1
            cases hl1
            obtain ⟨L, d, hL, hd, hprefix⟩ := hmem1 pr hpr
            refine ⟨L, d, hL, hd, hprefix, by omega, ?_⟩
            rw [Nat.sub_self]
            simp [listSlice_refl]
          unfold SuffixTree.findNode at hfn
          have hpost := findNodeLoop_sound hwf F 0 p.length nd r (le_refl _)
            (fun _ _ => rfl) hpre0 hfn
          intro tr htr
          obtain ⟨pr, hpr, hpr2⟩ := optionMapAll_mem_rev hmap tr htr
          simp only [Option.bind_eq_bind, Option.bind_eq_some] at hpr2
          obtain ⟨st, hst, htr2⟩ := hpr2
          simp only [checkedSub] at hst
          split at hst
          on_goal 2 => cases hst
          cases hst
          cases htr2
          obtain ⟨hge, d, hd, hslice⟩ := hpost ol hol pr hpr
          exact ⟨d, hd, hslice⟩

set_option maxRecDepth 10000 in
/-- Witness for C4: the tree built from `b"test"` is well formed,
`contains(b"es")` holds, and the only emitted triple decodes to `b"es"`. -/
theorem find_no_false_positives_witness :
    treeTest.wellFormed 16 = true ∧
    treeTest.contains [101, 115] 16 = some true ∧
    treeTest.find [101, 115] 16 = some [(0, 1, 3)] ∧
    ∀ tr ∈ [((0 : Nat), (1 : Nat), (3 : Nat))],
      ∃ d, treeTest.sequenceById tr.1 = some d ∧
        listSlice d tr.2.1 tr.2.2 = [101, 115] :=
  ⟨by decide, by decide, by decide,
    find_no_false_positives treeTest 16 [101, 115] [(0, 1, 3)]
      (by decide) (by decide) (by decide)⟩

/-! ## C7: alphabet construction -/

/-- Counterexample for C7: the singleton list `[255]` is a list of
pairwise-distinct byte values in `[0, 256)`, yet `Alphabet::new` panics on
it — indexing the 255-element `ranks` array at 255 is out of bounds. -/
theorem alphabet_new_byte255_counterexample :
    Alphabet.new [255] = none ∧
    List.Pairwise (· ≠ ·) [(255 : Nat)] ∧ (255 : Nat) < 256 := by
  refine ⟨by decide, ?_, by omega⟩
  simp

lemma Alphabet.newGo_isSome :
    ∀ (symbols : List Nat) (ranks : List (Option Nat)) (i : Nat),
      ((Alphabet.newGo ranks i symbols).isSome = true ↔
        (symbols.Pairwise (· ≠ ·) ∧
          ∀ b ∈ symbols, ranks.get? b = some none)) := by
  intro symbols
  induction symbols with
  | nil =>
      intro ranks i
      simp [Alphabet.newGo]
  | cons s rest ih =>
      intro ranks i
      rw [Alphabet.newGo]
      cases hget : ranks.get? s with
      | none =>
          simp only [Option.isSome_none, Bool.false_eq_true, false_iff]
          rintro ⟨-, hall⟩
          have := hall s (List.mem_cons_self _ _)
          rw [hget] at this
          cases this
      | some o =>
          cases o with
          | some v =>
              simp only [Option.isSome_none, Bool.false_eq_true, false_iff]
              rintro ⟨-, hall⟩
              have := hall s (List.mem_cons_self _ _)
              rw [hget] at this
              simp at this
          | none =>
              have hslt : s < ranks.length := get_some_lt hget
              rw [ih]
              constructor
              · rintro ⟨hpw, hall⟩
                have hne : ∀ b ∈ rest, s ≠ b := by
                  intro b hb
                  intro hsb
                  have := hall b hb
                  rw [← hsb, List.get?_set_eq_of_lt _ hslt] at this
                  simp at this
                refine ⟨List.pairwise_cons.mpr ⟨hne, hpw⟩, ?_⟩
                intro b hb
                rcases List.mem_cons.mp hb with rfl | hb'
                · exact hget
                · have := hall b hb'
                  rw [List.get?_set_ne _ _ (hne b hb')] at this
                  exact this
              · rintro ⟨hpw, hall⟩
                obtain ⟨hne, hpw'⟩ := List.pairwise_cons.mp hpw
                refine ⟨hpw', fun b hb => ?_⟩
                rw [List.get?_set_ne _ _ (hne b hb)]
                exact hall b (List.mem_cons_of_mem _ hb)

/-- C7 (amended): `Alphabet::new` succeeds exactly on lists of
pairwise-distinct byte values below 255; it panics both on a repeated byte
and on the byte 255 (the `ranks` array has only 255 slots). -/
theorem alphabet_new_succeeds_iff (symbols : List Nat) :
    (Alphabet.new symbols).isSome = true ↔
      (symbols.Pairwise (· ≠ ·) ∧ ∀ b ∈ symbols, b < 255) := by
  unfold Alphabet.new
  rw [Option.isSome_map']
  rw [Alphabet.newGo_isSome]
  constructor
  · rintro ⟨hpw, hall⟩
    refine ⟨hpw, fun b hb => ?_⟩
    have := hall b hb
    by_contra hge
    rw [List.get?_eq_none.mpr (by rw [List.length_replicate]; omega)] at this
    cases this
  · rintro ⟨hpw, hall⟩
    refine ⟨hpw, fun b hb => ?_⟩
    have hblt : b < 255 := hall b hb
    have hlen : b < (List.replicate 255 (none : Option Nat)).length := by
      rw [List.length_replicate]; omega
    rw [List.get?_eq_some]
    exact ⟨hlen, List.get_replicate _ _⟩

/-! ## C5 infrastructure: shape preservation of the cell writes -/

lemma set_get_self : ∀ {l : List α} {n : Nat} {a : α},
    l.get? n = some a → l.set n a = l := by
  intro l
  induction l with
  | nil => intro n a h; cases h
  | cons x xs ih =>
      intro n a h
      cases n with
      | zero => cases h; rfl
      | succ m =>
          simp only [List.get?] at h
          simp only [List.set]
          rw [ih h]

lemma sameShape_refl (t : SuffixTree) : sameShape t t := ⟨rfl, rfl⟩

lemma sameShape_trans {t1 t2 t3 : SuffixTree}
    (h1 : sameShape t1 t2) (h2 : sameShape t2 t3) : sameShape t1 t3 :=
  ⟨h1.1.trans h2.1, h1.2.trans h2.2⟩

lemma sameShape_get? {t t' : SuffixTree} (h : sameShape t t') (n : Nat) :
    Option.map Node.eraseCell (t.nodes.get? n) =
      Option.map Node.eraseCell (t'.nodes.get? n) := by
  rw [← List.get?_map, ← List.get?_map, h.2]

lemma SuffixTree.setSeqIdSet_spec {t t1 : SuffixTree} {m v : Nat}
    (h : t.setSeqIdSet m v = some t1) :
    t1.seqIdSetAt m = some v ∧
    (∀ n, n ≠ m → t1.seqIdSetAt n = t.seqIdSetAt n) ∧
    sameShape t t1 := by
  unfold SuffixTree.setSeqIdSet at h
  cases hm : t.nodes.get? m with
  | none => rw [hm] at h; cases h
  | some node =>
      rw [hm] at h
      cases node with
      | root cm => cases h
      | leaf a b => cases h
      | internal i s e cm sl ss =>
          cases h
          have hmlt : m < t.nodes.length := get_some_lt hm
          refine ⟨?_, ?_, ?_⟩
          · unfold SuffixTree.seqIdSetAt
            simp only
            rw [List.get?_set_eq_of_lt _ hmlt]
          · intro n hn
            unfold SuffixTree.seqIdSetAt
            simp only
            rw [List.get?_set_ne _ _ (fun he => hn he.symm)]
          · refine ⟨rfl, ?_⟩
            simp only
            rw [List.map_set]
            refine (set_get_self ?_).symm
            rw [List.get?_map, hm]
            rfl

lemma SuffixTree.applyUpdates_spec :
    ∀ {ups : List (Nat × Nat)} {t t' : SuffixTree},
      SuffixTree.applyUpdates t ups = some t' →
      sameShape t t' ∧
      (∀ n bs, t'.seqIdSetAt n = some bs →
        t.seqIdSetAt n = some bs ∨ (n, bs) ∈ ups) ∧
      (∀ n, (t.seqIdSetAt n).isSome = true → (t'.seqIdSetAt n).isSome = true) ∧
      (∀ pr ∈ ups, (t'.seqIdSetAt pr.1).isSome = true) := by
  intro ups
  induction ups with
  | nil =>
      intro t t' h
      cases h
      exact ⟨sameShape_refl t, fun n bs h => Or.inl h, fun n h => h,
        fun pr hpr => absurd hpr (List.not_mem_nil _)⟩
  | cons mv rest ih =>
      intro t t' h
      obtain ⟨m, v⟩ := mv
      simp only [SuffixTree.applyUpdates, Option.bind_eq_bind,
        Option.bind_eq_some] at h
      obtain ⟨t1, ht1, hrest⟩ := h
      obtain ⟨hset, hother, hshape⟩ := SuffixTree.setSeqIdSet_spec ht1
      obtain ⟨hshape', hback, hkeep, hmem⟩ := ih hrest
      refine ⟨sameShape_trans hshape hshape', ?_, ?_, ?_⟩
      · intro n bs hbs
        rcases hback n bs hbs with h1 | h1
        · by_cases hnm : n = m
          · subst hnm
            rw [hset] at h1
            cases h1
            exact Or.inr (List.mem_cons_self _ _)
          · rw [hother n hnm] at h1
            exact Or.inl h1
        · exact Or.inr (List.mem_cons_of_mem _ h1)
      · intro n hn
        apply hkeep
        by_cases hnm : n = m
        · subst hnm; rw [hset]; rfl
        · rw [hother n hnm]; exact hn
      · intro pr hpr
        rcases List.mem_cons.mp hpr with rfl | hpr'
        · apply hkeep
          rw [hset]
          rfl
        · exact hmem pr hpr'

lemma optionMapAll_congr {f g : α → Option β} :
    ∀ {l : List α}, (∀ a ∈ l, f a = g a) →
      optionMapAll f l = optionMapAll g l := by
  intro l
  induction l with
  | nil => intro _; rfl
  | cons x xs ih =>
      intro h
      simp only [optionMapAll]
      rw [h x (List.mem_cons_self _ _), ih (fun a ha => h a (List.mem_cons_of_mem _ ha))]

lemma SuffixTree.leafIdsBelow_shape {t t' : SuffixTree} (hs : sameShape t t') :
    ∀ (fuel n : Nat),
      SuffixTree.leafIdsBelow fuel t n = SuffixTree.leafIdsBelow fuel t' n := by
  intro fuel
  induction fuel with
  | zero => intro n; rfl
  | succ fm ih =>
      intro n
      have hg := sameShape_get? hs n
      rw [SuffixTree.leafIdsBelow, SuffixTree.leafIdsBelow]
      cases hn : t.nodes.get? n with
      | none =>
          cases hn' : t'.nodes.get? n with
          | none => rfl
          | some node' => rw [hn, hn'] at hg; cases hg
      | some node =>
          cases hn' : t'.nodes.get? n with
          | none => rw [hn, hn'] at hg; cases hg
          | some node' =>
              rw [hn, hn'] at hg
              simp only [Option.map_some', Option.some.injEq] at hg
              cases node with
              | root cm =>
                  cases node' with
                  | root cm' => rfl
                  | internal i' s' e' cm' sl' ss' => simp [Node.eraseCell] at hg
                  | leaf a' b' => simp [Node.eraseCell] at hg
              | internal i s e cm sl ss =>
                  cases node' with
                  | root cm' => simp [Node.eraseCell] at hg
                  | leaf a' b' => simp [Node.eraseCell] at hg
                  | internal i' s' e' cm' sl' ss' =>
                      simp only [Node.eraseCell, Node.internal.injEq] at hg
                      obtain ⟨rfl, rfl, rfl, rfl, rfl, -⟩ := hg
                      exact congrArg (Option.map List.flatten)
                        (optionMapAll_congr (fun c _ => ih c))
              | leaf a b =>
                  cases node' with
                  | root cm' => simp [Node.eraseCell] at hg
                  | internal i' s' e' cm' sl' ss' => simp [Node.eraseCell] at hg
                  | leaf a' b' =>
                      simp only [Node.eraseCell, Node.leaf.injEq] at hg
                      obtain ⟨rfl, rfl⟩ := hg
                      rfl

lemma SuffixTree.reachAux_shape {t t' : SuffixTree} (hs : sameShape t t') :
    ∀ (fuel n : Nat), t.reachAux fuel n = t'.reachAux fuel n := by
  intro fuel
  induction fuel with
  | zero => intro n; rfl
  | succ fm ih =>
      intro n
      have hg := sameShape_get? hs n
      rw [SuffixTree.reachAux, SuffixTree.reachAux]
      congr 1
      have hcm : (t.nodes.get? n).bind Node.children? =
          (t'.nodes.get? n).bind Node.children? := by
        cases hn : t.nodes.get? n with
        | none =>
            cases hn' : t'.nodes.get? n with
            | none => rfl
            | some node' => rw [hn, hn'] at hg; cases hg
        | some node =>
            cases hn' : t'.nodes.get? n with
            | none => rw [hn, hn'] at hg; cases hg
            | some node' =>
                rw [hn, hn'] at hg
                simp only [Option.map_some', Option.some.injEq] at hg
                cases node <;> cases node' <;>
                  simp_all [Node.eraseCell, Node.children?]
      rw [hcm]
      cases (t'.nodes.get? n).bind Node.children? with
      | none => rfl
      | some cm =>
          simp only
          congr 1
          exact List.map_congr_left (fun c _ => ih c)

lemma SuffixTree.isInternalAt_shape {t t' : SuffixTree} (hs : sameShape t t')
    (n : Nat) : t.isInternalAt n = t'.isInternalAt n := by
  have hg := sameShape_get? hs n
  unfold SuffixTree.isInternalAt
  cases hn : t.nodes.get? n with
  | none =>
      cases hn' : t'.nodes.get? n with
      | none => rfl
      | some node' => rw [hn, hn'] at hg; cases hg
  | some node =>
      cases hn' : t'.nodes.get? n with
      | none => rw [hn, hn'] at hg; cases hg
      | some node' =>
          rw [hn, hn'] at hg
          simp only [Option.map_some', Option.some.injEq] at hg
          cases node <;> cases node' <;> simp_all [Node.eraseCell]

lemma SuffixTree.rootNode_shape {t t' : SuffixTree} (hs : sameShape t t') :
    t.rootNode = t'.rootNode := by
  have hg := sameShape_get? hs 0
  unfold SuffixTree.rootNode
  cases hn : t.nodes.get? 0 with
  | none =>
      cases hn' : t'.nodes.get? 0 with
      | none => rfl
      | some node' => rw [hn, hn'] at hg; cases hg
  | some node =>
      cases hn' : t'.nodes.get? 0 with
      | none => rw [hn, hn'] at hg; cases hg
      | some node' =>
          rw [hn, hn'] at hg
          simp only [Option.map_some', Option.some.injEq] at hg
          cases node <;> cases node' <;> simp_all [Node.eraseCell]

lemma SuffixTree.reachables_shape {t t' : SuffixTree} (hs : sameShape t t')
    (fuel : Nat) : t.reachables fuel = t'.reachables fuel := by
  unfold SuffixTree.reachables
  rw [SuffixTree.rootNode_shape hs]
  cases t'.rootNode with
  | none => rfl
  | some cm =>
      simp only
      congr 1
      exact List.map_congr_left (fun c _ => SuffixTree.reachAux_shape hs fuel c)

lemma SuffixTree.leafIdsBelow_mono {t : SuffixTree} :
    ∀ {fuel n ids}, SuffixTree.leafIdsBelow fuel t n = some ids →
      SuffixTree.leafIdsBelow (fuel + 1) t n = some ids := by
  intro fuel
  induction fuel with
  | zero => intro n ids h; simp [SuffixTree.leafIdsBelow] at h
  | succ fm ih =>
      intro n ids h
      rw [SuffixTree.leafIdsBelow] at h
      rw [SuffixTree.leafIdsBelow]
      cases hn : t.nodes.get? n with
      | none => rw [hn] at h; exact absurd h (by simp)
      | some node =>
          rw [hn] at h
          cases node with
          | root cm => exact h
          | leaf a b => exact h
          | internal i s e cm sl ss =>
              simp only [Option.map_eq_some'] at h ⊢
              obtain ⟨ls, hls, hres⟩ := h
              exact ⟨ls, optionMapAll_strengthen (fun a _ b hb => ih hb) hls, hres⟩

lemma SuffixTree.leafIdsBelow_mono_le {t : SuffixTree} {fuel fuel' n : Nat}
    {ids : List Nat} (hle : fuel ≤ fuel')
    (h : SuffixTree.leafIdsBelow fuel t n = some ids) :
    SuffixTree.leafIdsBelow fuel' t n = some ids := by
  induction hle with
  | refl => exact h
  | step _ ih => exact SuffixTree.leafIdsBelow_mono ih

lemma optionMapAll_exists_rel {f : α → Option β} {g : α → Option γ}
    {R : β → γ → Prop} :
    ∀ {l : List α} {ys : List β},
      optionMapAll f l = some ys →
      (∀ a ∈ l, ∀ b, f a = some b → ∃ c, g a = some c ∧ R b c) →
      ∃ zs, optionMapAll g l = some zs ∧ List.Forall₂ R ys zs := by
  intro l
  induction l with
  | nil =>
      intro ys h _
      simp only [optionMapAll, Option.some.injEq] at h
      cases h
      exact ⟨[], rfl, List.Forall₂.nil⟩
  | cons x xs ih =>
      intro ys h hrel
      simp only [optionMapAll, Option.bind_eq_bind, Option.bind_eq_some,
        Option.some.injEq] at h
      obtain ⟨b, hb, bs, hbs, rfl⟩ := h
      obtain ⟨c, hc, hbc⟩ := hrel x (List.mem_cons_self _ _) b hb
      obtain ⟨zs, hzs, hfa⟩ :=
        ih hbs (fun a ha => hrel a (List.mem_cons_of_mem _ ha))
      refine ⟨c :: zs, ?_, List.Forall₂.cons hbc hfa⟩
      simp only [optionMapAll, Option.bind_eq_bind, Option.bind_eq_some,
        Option.some.injEq]
      exact ⟨c, hc, zs, hzs, rfl⟩

lemma forall₂_exists_iff {R : β → γ → Prop} {P : β → Prop} {Q : γ → Prop}
    (hR : ∀ b c, R b c → (P b ↔ Q c)) :
    ∀ {ys : List β} {zs : List γ}, List.Forall₂ R ys zs →
      ((∃ b ∈ ys, P b) ↔ (∃ c ∈ zs, Q c)) := by
  intro ys zs h
  induction h with
  | nil => simp
  | cons hbc _ ih =>
      rename_i b c ys' zs' _
      simp only [List.mem_cons]
      constructor
      · rintro ⟨b', hb', hP⟩
        rcases hb' with rfl | hb'
        · exact ⟨c, Or.inl rfl, (hR _ _ hbc).mp hP⟩
        · obtain ⟨c', hc', hQ⟩ := ih.mp ⟨b', hb', hP⟩
          exact ⟨c', Or.inr hc', hQ⟩
      · rintro ⟨c', hc', hQ⟩
        rcases hc' with rfl | hc'
        · exact ⟨b, Or.inl rfl, (hR _ _ hbc).mpr hQ⟩
        · obtain ⟨b', hb', hP⟩ := ih.mpr ⟨c', hc', hQ⟩
          exact ⟨b', Or.inr hb', hP⟩

lemma testBit_foldl_lor (key : α → Nat) :
    ∀ (rs : List α) (acc i : Nat),
      (rs.foldl (fun a r => a ||| key r) acc).testBit i =
        (acc.testBit i || rs.any (fun r => (key r).testBit i)) := by
  intro rs
  induction rs with
  | nil => intro acc i; simp
  | cons r rest ih =>
      intro acc i
      rw [List.foldl_cons, ih, List.any_cons, Nat.testBit_or]
      rw [Bool.or_assoc]

/-- Value and update-log characterisation of `_prepare_lcs`: the computed
id set of a subtree has exactly the bits of the sequence ids of its
leaves, every logged write carries such a set for its (internal) node, and
every internal node visited gets a write. -/
lemma SuffixTree.prepareLcsAux_spec {t : SuffixTree} :
    ∀ {fuel n : Nat} {v : Nat} {ups : List (Nat × Nat)},
      SuffixTree.prepareLcsAux fuel t n = some (v, ups) →
      (∃ ids, SuffixTree.leafIdsBelow fuel t n = some ids ∧
        ∀ i, v.testBit i = true ↔ i ∈ ids) ∧
      (∀ pr ∈ ups, t.isInternalAt pr.1 = true ∧
        ∃ ids, SuffixTree.leafIdsBelow fuel t pr.1 = some ids ∧
          ∀ i, pr.2.testBit i = true ↔ i ∈ ids) ∧
      (∀ m ∈ t.reachAux fuel n, t.isInternalAt m = true →
        ∃ bv, (m, bv) ∈ ups) := by
  intro fuel
  induction fuel with
  | zero => intro n v ups h; simp [SuffixTree.prepareLcsAux] at h
  | succ fm ih =>
      intro n v ups h
      rw [SuffixTree.prepareLcsAux] at h
      cases hn : t.nodes.get? n with
      | none => rw [hn] at h; cases h
      | some node =>
          rw [hn] at h
          cases node with
          | root cm => cases h
          | leaf seqId start =>
              have hint : t.isInternalAt n = false := by
                unfold SuffixTree.isInternalAt
                rw [hn]
              replace h : (if seqId < 128 then
                  some ((2 : Nat) ^ seqId, ([] : List (Nat × Nat)))
                  else none) = some (v, ups) := h
              split at h
              · rename_i h128
                simp only [Option.some.injEq, Prod.mk.injEq] at h
                obtain ⟨rfl, rfl⟩ := h
                refine ⟨⟨[seqId], ?_, ?_⟩, ?_, ?_⟩
                · rw [SuffixTree.leafIdsBelow, hn]
                · intro i
                  rw [Nat.testBit_two_pow]
                  simp [eq_comm]
                · intro pr hpr; cases hpr
                · intro m hm hintm
                  rw [SuffixTree.reachAux, hn] at hm
                  simp only [Node.children?, Option.some_bind] at hm
                  simp only [List.map_nil, List.flatten_nil] at hm
                  rcases List.mem_cons.mp hm with rfl | hm'
                  · rw [hintm] at hint; cases hint
                  · cases hm'
              · cases h
          | internal i s e cm sl ss =>
              simp only [Option.bind_eq_bind, Option.bind_eq_some,
                Option.some.injEq, Prod.mk.injEq] at h
              obtain ⟨results, hresults, hv, hups⟩ := h
              subst hv
              subst hups
              -- relate each child's aux result to its leaf-id list
              obtain ⟨idss, hidss, hfa⟩ := optionMapAll_exists_rel
                (g := SuffixTree.leafIdsBelow fm t)
                (R := fun (r : Nat × List (Nat × Nat)) (ids : List Nat) =>
                  ∀ i, r.1.testBit i = true ↔ i ∈ ids)
                hresults
                (fun c _ r hr => by
                  obtain ⟨⟨ids, hids, hiff⟩, -, -⟩ := ih hr
                  exact ⟨ids, hids, hiff⟩)
              have hleaf : SuffixTree.leafIdsBelow (fm + 1) t n =
                  some idss.flatten := by
                rw [SuffixTree.leafIdsBelow, hn]
                show Option.map List.flatten
                  (optionMapAll (SuffixTree.leafIdsBelow fm t) cm.iter) =
                  some idss.flatten
                rw [hidss]
                rfl
              have hbits : ∀ j,
                  (results.foldl
                    (fun acc (r : Nat × List (Nat × Nat)) => acc ||| r.1)
                    0).testBit j = true ↔
                  j ∈ idss.flatten := by
                intro j
                rw [testBit_foldl_lor]
                simp only [Nat.zero_testBit, Bool.false_or]
                rw [List.any_eq_true, List.mem_flatten]
                exact forall₂_exists_iff (fun b c hbc => hbc j) hfa
              refine ⟨⟨idss.flatten, hleaf, hbits⟩, ?_, ?_⟩
              · intro pr hpr
                rcases List.mem_append.mp hpr with hpr | hpr
                · rw [List.mem_flatten] at hpr
                  obtain ⟨rups, hrups, hpr⟩ := hpr
                  rw [List.mem_map] at hrups
                  obtain ⟨r, hr, rfl⟩ := hrups
                  obtain ⟨c, hc, hcr⟩ := optionMapAll_mem_rev hresults r hr
                  obtain ⟨-, hupspec, -⟩ := ih hcr
                  obtain ⟨hint, ids, hids, hiff⟩ := hupspec pr hpr
                  exact ⟨hint, ids, SuffixTree.leafIdsBelow_mono hids, hiff⟩
                · rcases List.mem_singleton.mp hpr with rfl
                  refine ⟨?_, idss.flatten, hleaf, hbits⟩
                  unfold SuffixTree.isInternalAt
                  rw [hn]
              · intro m hm hintm
                rw [SuffixTree.reachAux, hn] at hm
                simp only [Node.children?, Option.some_bind] at hm
                rcases List.mem_cons.mp hm with rfl | hm'
                · exact ⟨results.foldl
                      (fun acc (r : Nat × List (Nat × Nat)) => acc ||| r.1) 0,
                    List.mem_append_right _ (List.mem_singleton.mpr rfl)⟩
                · rw [List.mem_flatten] at hm'
                  obtain ⟨rl, hrl, hm2⟩ := hm'
                  rw [List.mem_map] at hrl
                  obtain ⟨c, hc, rfl⟩ := hrl
                  obtain ⟨r, hr, hcr⟩ := optionMapAll_mem_some hresults c hc
                  obtain ⟨-, -, hreach⟩ := ih hcr
                  obtain ⟨bv, hbv⟩ := hreach m hm2 hintm
                  refine ⟨bv, List.mem_append_left _ ?_⟩
                  rw [List.mem_flatten]
                  exact ⟨r.2, List.mem_map.mpr ⟨r, hr, rfl⟩, hbv⟩

lemma SuffixTree.seqIdSetAt_some_lt {t : SuffixTree} {n bs : Nat}
    (h : t.seqIdSetAt n = some bs) : n < t.nodes.length := by
  unfold SuffixTree.seqIdSetAt at h
  cases hn : t.nodes.get? n with
  | none => rw [hn] at h; cases h
  | some node => exact get_some_lt hn

/-! ## C5: the sequence-id bitsets after LCS preparation -/

/-- C5: after `prepare_lcs` (run by `build()`) on a tree whose cells start
empty, every populated `sequence_id_set` has bit `i` set iff the subtree
below that internal node contains a leaf of sequence id `i`, and every
internal node reachable from the root is populated. -/
theorem prepare_lcs_bitsets (t t' : SuffixTree) (F : Nat)
    (hprep : t.prepareLcs F = some t')
    (hinit : ∀ m, m < t.nodes.length → t.seqIdSetAt m = none) :
    (∀ n bs, t'.seqIdSetAt n = some bs →
      ∃ ids, SuffixTree.leafIdsBelow F t' n = some ids ∧
        ∀ i, bs.testBit i = true ↔ i ∈ ids) ∧
    (∀ m, m ∈ t'.reachables F → t'.isInternalAt m = true →
      (t'.seqIdSetAt m).isSome = true) := by
  unfold SuffixTree.prepareLcs at hprep
  simp only [Option.bind_eq_bind, Option.bind_eq_some] at hprep
  obtain ⟨rootCm, hroot, results, hresults, happly⟩ := hprep
  obtain ⟨hshape, hback, hkeep, hmem⟩ := SuffixTree.applyUpdates_spec happly
  constructor
  · intro n bs hbs
    rcases hback n bs hbs with h1 | h1
    · have hlt : n < t.nodes.length := SuffixTree.seqIdSetAt_some_lt h1
      rw [hinit n hlt] at h1
      cases h1
    · rw [List.mem_flatten] at h1
      obtain ⟨rups, hrups, h1⟩ := h1
      rw [List.mem_map] at hrups
      obtain ⟨r, hr, rfl⟩ := hrups
      obtain ⟨c, hc, hcr⟩ := optionMapAll_mem_rev hresults r hr
      obtain ⟨-, hupspec, -⟩ := SuffixTree.prepareLcsAux_spec hcr
      obtain ⟨hint, ids, hids, hiff⟩ := hupspec (n, bs) h1
      refine ⟨ids, ?_, hiff⟩
      rw [← SuffixTree.leafIdsBelow_shape hshape]
      exact hids
  · intro m hm hintm
    rw [← SuffixTree.reachables_shape hshape] at hm
    unfold SuffixTree.reachables at hm
    rw [hroot] at hm
    replace hm : m ∈ (rootCm.iter.map (t.reachAux F)).flatten := hm
    rw [List.mem_flatten] at hm
    obtain ⟨rl, hrl, hm2⟩ := hm
    rw [List.mem_map] at hrl
    obtain ⟨c, hc, rfl⟩ := hrl
    obtain ⟨r, hr, hcr⟩ := optionMapAll_mem_some hresults c hc
    obtain ⟨-, -, hreach⟩ := SuffixTree.prepareLcsAux_spec hcr
    have hintt : t.isInternalAt m = true := by
      rw [SuffixTree.isInternalAt_shape hshape]
      exact hintm
    obtain ⟨bv, hbv⟩ := hreach m hm2 hintt
    apply hmem (m, bv)
    rw [List.mem_flatten]
    exact ⟨r.2, List.mem_map.mpr ⟨r, hr, rfl⟩, hbv⟩

set_option maxRecDepth 100000 in
/-- Witness for C5 on the builder tree for `b"test"`. -/
theorem prepare_lcs_bitsets_witness :
    treeTestRaw.prepareLcs 64 = some treeTest ∧
    (∀ m, m < treeTestRaw.nodes.length → treeTestRaw.seqIdSetAt m = none) ∧
    ((∀ n bs, treeTest.seqIdSetAt n = some bs →
        ∃ ids, SuffixTree.leafIdsBelow 64 treeTest n = some ids ∧
          ∀ i, bs.testBit i = true ↔ i ∈ ids) ∧
      (∀ m, m ∈ treeTest.reachables 64 → treeTest.isInternalAt m = true →
        (treeTest.seqIdSetAt m).isSome = true)) :=
  ⟨by decide, by decide,
    prepare_lcs_bitsets treeTestRaw treeTest 64 (by decide) (by decide)⟩

end SuffixTreeRs
